import Mathlib

/-!
Verification of `autotranslate/management/commands/translate_messages.py`.

Python strings are modelled as lists of characters (`Str`).  The regular
expression operations used by the source (`re.sub` with pattern
`%(?:\((\w+)\))?([sd])` in `humanize_placeholders`, `re.findall` with
`(\s*)(%(?:\(\w+\))?[sd])(\s*)` and `re.sub` with `(\s*)(__[\w]+?__)(\s*)`
in `restore_placeholders`) are embedded as explicit left-to-right scanners.
The scanners recurse on a fuel argument initialised to the input length,
which makes them structurally recursive and hence computable by `rfl`;
fuel-independence lemmas below show the fuel plays no semantic role.
Python exceptions (`StopIteration` from an exhausted translation iterator,
`IndexError` from `placehoders[0]` on an empty list) are modelled by
`Option`, with `none` standing for a raised exception.
-/

/-- A Python (unicode) string, modelled as its list of characters. -/
abbrev Str := List Char

/-- The regex character class `\s` (ASCII fragment, as matched by Python's
`re` module on the characters appearing in message catalogs). -/
def pyIsSpace (c : Char) : Bool :=
  c = ' ' || c = '\t' || c = '\n' || c = '\r' || c = '\x0b' || c = '\x0c'

/-- The regex character class `\w` (ASCII fragment): alphanumeric or
underscore. -/
def pyIsWord (c : Char) : Bool := c.isAlphanum || c = '_'

/-- The source text of a placeholder: `%(name)s`, `%(name)d`, `%s` or `%d`. -/
def phText (name : Option Str) (conv : Char) : Str :=
  match name with
  | some n => '%' :: '(' :: (n ++ [')', conv])
  | none => ['%', conv]

/-- The service-friendly token `humanize_placeholders` substitutes for a
placeholder: `__name__` (name lower-cased), `__number__` or `__item__`. -/
def phToken (name : Option Str) (conv : Char) : Str :=
  match name with
  | some n => '_' :: '_' :: (n.map Char.toLower ++ ['_', '_'])
  | none =>
    if conv = 'd' then ['_', '_', 'n', 'u', 'm', 'b', 'e', 'r', '_', '_']
    else ['_', '_', 'i', 't', 'e', 'm', '_', '_']

/-- Matching the placeholder regex `%(?:\((\w+)\))?([sd])` at the start of a
string: returns the optional group-1 name, the conversion character and the
remainder of the string after the match. -/
def matchPH : Str → Option (Option Str × Char × Str)
  | '%' :: '(' :: rest =>
    if rest.takeWhile pyIsWord = [] then none
    else
      match rest.dropWhile pyIsWord with
      | ')' :: cv :: r =>
        if cv = 's' || cv = 'd' then some (some (rest.takeWhile pyIsWord), cv, r)
        else none
      | _ => none
  | '%' :: cv :: rest => if cv = 's' || cv = 'd' then some (none, cv, rest) else none
  | _ => none

/-- The scanning loop of `re.sub(r'%(?:\((\w+)\))?([sd])', ..., msgid)`:
at each position, replace a placeholder match by its token, otherwise copy
the character.  The fuel argument (instantiated with the input length) only
makes the recursion structural. -/
def humanizeGo : Nat → Str → Str
  | 0, _ => []
  | _ + 1, [] => []
  | fuel + 1, c :: rest =>
    match matchPH (c :: rest) with
    | some (name, cv, r) => phToken name cv ++ humanizeGo fuel r
    | none => c :: humanizeGo fuel rest

/-- Function `humanize_placeholders` from the source: rewrite `%(name)s`/`%(name)d` to
`__name__` (lower-cased), `%d` to `__number__` and `%s` to `__item__`, in a
single left-to-right scan. -/
def humanize_placeholders (s : Str) : Str := humanizeGo s.length s

/-- The scanning loop of
`re.findall(r'(\s*)(%(?:\(\w+\))?[sd])(\s*)', msgid)`: collect, for each
placeholder occurrence, the triple (whitespace before, placeholder text,
whitespace after).  Fuel as in `humanizeGo`. -/
def findallGo : Nat → Str → List (Str × Str × Str)
  | 0, _ => []
  | _ + 1, [] => []
  | fuel + 1, c :: rest =>
    match matchPH ((c :: rest).dropWhile pyIsSpace) with
    | some (name, cv, r) =>
      ((c :: rest).takeWhile pyIsSpace, phText name cv, r.takeWhile pyIsSpace) ::
        findallGo fuel (r.dropWhile pyIsSpace)
    | none => findallGo fuel rest

/-- The `placehoders` list built by `restore_placeholders`. -/
def findallPH (s : Str) : List (Str × Str × Str) := findallGo s.length s

/-- The non-greedy core `[\w]+?` of the token regex `__[\w]+?__`: consume
word characters one at a time, stopping at the first position followed by
`__`.  Returns the consumed core and the remainder after the closing
underscores. -/
def tokMid : Str → Option (Str × Str)
  | c :: rest =>
    if pyIsWord c then
      if rest.take 2 = ['_', '_'] then some ([c], rest.drop 2)
      else (tokMid rest).map (fun p => (c :: p.1, p.2))
    else none
  | [] => none

/-- Matching the humanized-token regex `__[\w]+?__` at the start of a
string: returns the full matched token text and the remainder. -/
def matchToken : Str → Option (Str × Str)
  | '_' :: '_' :: rest =>
    (tokMid rest).map (fun p => ('_' :: '_' :: (p.1 ++ ['_', '_']), p.2))
  | _ => none

/-- The scanning loop of `re.sub(r'(\s*)(__[\w]+?__)(\s*)', ..., translation)`
together with the popping of `placehoders`: each token occurrence (with its
surrounding whitespace) is replaced by the next recorded
whitespace/placeholder/whitespace triple; if the list is exhausted the
`placehoders[0]` lookup raises `IndexError`, modelled as `none`. -/
def subGo : Nat → List (Str × Str × Str) → Str → Option Str
  | 0, _, _ => some []
  | _ + 1, _, [] => some []
  | fuel + 1, phs, c :: rest =>
    match matchToken ((c :: rest).dropWhile pyIsSpace) with
    | some (_, r) =>
      match phs with
      | [] => none
      | (a, p, b) :: phs' =>
        (subGo fuel phs' (r.dropWhile pyIsSpace)).map (fun out => a ++ p ++ b ++ out)
    | none => (subGo fuel phs rest).map (fun out => c :: out)

/-- The `re.sub` call of `restore_placeholders` applied to a translation,
with `phs` playing the role of the mutable `placehoders` list. -/
def subTokens (phs : List (Str × Str × Str)) (t : Str) : Option Str := subGo t.length phs t

/-- Function `restore_placeholders` from the source: collect the placeholder triples
of `msgid` with `re.findall`, then substitute them for the humanized tokens
of the translation. -/
def restore_placeholders (msgid translation : Str) : Option Str :=
  subTokens (findallPH msgid) translation

/-- Python `str.startswith('\n')`. -/
def startsWithNL (s : Str) : Bool := s.head? = some '\n' 

/-- Python `str.endswith('\n')`. -/
def endsWithNL (s : Str) : Bool := s.getLast? = some '\n'

/-- The two newline-repair steps at the start of `fix_translation`:
prepend a newline when `msgid` starts with one and the translation does
not, then append one when `msgid` ends with one and the (possibly
prepended) translation does not. -/
def fixNewlines (msgid translation : Str) : Str :=
  let t1 := if startsWithNL msgid && !startsWithNL translation
    then '\n' :: translation else translation
  if endsWithNL msgid && !endsWithNL t1 then t1 ++ ['\n'] else t1

/-- Function `fix_translation` from the source: repair leading/trailing newlines,
then restore the placeholders recorded from `msgid`. -/
def fix_translation (msgid translation : Str) : Option Str :=
  restore_placeholders msgid (fixNewlines msgid translation)

/-- A catalog entry, as the source uses it through the catalog library:
`msgid`, optional `msgid_plural` (empty list = absent, matching Python
truthiness), `msgstr`, the plural-form mapping `msgstr_plural` (an
insertion-ordered dictionary, modelled as an association list), the flag
list and the obsolete marker. -/
structure POEntry where
  msgid : Str
  msgid_plural : Str
  msgstr : Str
  msgstr_plural : List (Nat × Str)
  flags : List Str
  obsolete : Bool
deriving DecidableEq

/-- Modelled from the spec: the catalog library's `entry.translated()`
derived boolean, "has a non-empty translation already" (all plural slots
non-empty when a plural form is present, else a non-empty `msgstr`).  The
library itself is outside the repository. -/
def POEntry.translated (e : POEntry) : Bool :=
  if e.msgid_plural ≠ [] then
    e.msgstr_plural ≠ [] && e.msgstr_plural.all (fun p => p.2 ≠ [])
  else e.msgstr ≠ []

/-- The command options relevant to entry processing: `--untranslated`
(`self.skip_translated`) and `--set-fuzzy` (`self.set_fuzzy`). -/
structure Config where
  skip_translated : Bool
  set_fuzzy : Bool
deriving DecidableEq

/-- Function `Command.need_translate` from the source:
`not self.skip_translated or not entry.translated() or not entry.obsolete`. -/
def need_translate (cfg : Config) (e : POEntry) : Bool :=
  !cfg.skip_translated || !e.translated || !e.obsolete

/-- Function `Command.get_strings_to_translate` from the source: for each entry that
needs translation, append the humanized `msgid`, then the humanized
`msgid_plural` when one is present. -/
def get_strings_to_translate (cfg : Config) : List POEntry → List Str
  | [] => []
  | e :: es =>
    if need_translate cfg e then
      if e.msgid_plural ≠ [] then
        humanize_placeholders e.msgid :: humanize_placeholders e.msgid_plural ::
          get_strings_to_translate cfg es
      else humanize_placeholders e.msgid :: get_strings_to_translate cfg es
    else get_strings_to_translate cfg es

/-- Python dictionary assignment `m[k] = v`: update the value of an
existing key in place, otherwise append the new key. -/
def dictSet (m : List (Nat × Str)) (k : Nat) (v : Str) : List (Nat × Str) :=
  if m.any (fun p => p.1 = k) then m.map (fun p => if p.1 = k then (k, v) else p)
  else m ++ [(k, v)]

/-- Python dictionary lookup `m[k]` (as an option). -/
def dictGet (m : List (Nat × Str)) (k : Nat) : Option Str :=
  (m.find? (fun p => p.1 = k)).map (fun p => p.2)

/-- The body of the `update_translations` loop for one entry that needs
translation: consume one translation for `msgid` (two when a plural form
is present), fix each against its message id, and store the results.
`none` models a raised `StopIteration` (exhausted iterator) or an error
propagating out of `fix_translation`.  Returns the updated entry together
with the not-yet-consumed translations. -/
def applyEntry (e : POEntry) : List Str → Option (POEntry × List Str)
  | [] => none
  | t1 :: ts1 =>
    if e.msgid_plural ≠ [] then
      match fix_translation e.msgid t1 with
      | none => none
      | some f1 =>
        let e1 := { e with msgstr_plural := dictSet e.msgstr_plural 0 f1 }
        match ts1 with
        | [] => none
        | t2 :: ts2 =>
          match fix_translation e.msgid_plural t2 with
          | none => none
          | some f2 =>
            some ({ e1 with msgstr_plural :=
              e1.msgstr_plural.map (fun p => if p.1 ≠ 0 then (p.1, f2) else p) }, ts2)
    else
      match fix_translation e.msgid t1 with
      | none => none
      | some f1 => some ({ e with msgstr := f1 }, ts1)

/-- The fuzzy-flag step at the end of the `update_translations` loop body:
`if self.set_fuzzy and 'fuzzy' not in entry.flags: entry.flags.append('fuzzy')`. -/
def setFuzzy (cfg : Config) (e : POEntry) : POEntry :=
  if cfg.set_fuzzy && !(e.flags.contains "fuzzy".data) then
    { e with flags := e.flags ++ ["fuzzy".data] }
  else e

/-- Function `Command.update_translations` from the source: walk the entries in
order, skipping those that do not need translation, consuming translations
from the iterator for the others.  Returns the updated entries and the
unconsumed suffix of the translation list; `none` models an exception
(iterator exhaustion or a `fix_translation` failure) propagating out. -/
def update_translations (cfg : Config) : List POEntry → List Str → Option (List POEntry × List Str)
  | [], ts => some ([], ts)
  | e :: es, ts =>
    if need_translate cfg e then
      match applyEntry e ts with
      | none => none
      | some (e1, ts1) =>
        match update_translations cfg es ts1 with
        | none => none
        | some (es1, rest) => some (setFuzzy cfg e1 :: es1, rest)
    else
      match update_translations cfg es ts with
      | none => none
      | some (es1, rest) => some (e :: es1, rest)

/-- Number of translations requested (and consumed) for a list of entries:
one per entry needing translation, plus one more when it has a plural
form. -/
def neededCount (cfg : Config) : List POEntry → Nat
  | [] => 0
  | e :: es =>
    (if need_translate cfg e then (if e.msgid_plural ≠ [] then 2 else 1) else 0) +
      neededCount cfg es

/-- Relation between an entry before and after one `update_translations`
pass: an entry that does not need translation is returned unchanged, and a
processed entry has exactly the flag list produced by the fuzzy-flag step. -/
def entryStep (cfg : Config) (e e' : POEntry) : Prop :=
  (need_translate cfg e = false → e' = e) ∧
  (need_translate cfg e = true →
    e'.flags = if cfg.set_fuzzy && !(e.flags.contains "fuzzy".data)
      then e.flags ++ ["fuzzy".data] else e.flags)

/-- One element of the placeholder decomposition of a string found by the
left-to-right scan: a literal character or a placeholder occurrence. -/
inductive MsgSeg where
  | litc : Char → MsgSeg
  | ph : Option Str → Char → MsgSeg
deriving DecidableEq

/-- The source text a segment stands for. -/
def segText : MsgSeg → Str
  | .litc c => [c]
  | .ph name cv => phText name cv

/-- The text a segment becomes after `humanize_placeholders`. -/
def segToken : MsgSeg → Str
  | .litc c => [c]
  | .ph name cv => phToken name cv

/-- The decomposition scan itself, mirroring the `re.sub` scan of
`humanize_placeholders` but recording what it sees. -/
def phParseGo : Nat → Str → List MsgSeg
  | 0, _ => []
  | _ + 1, [] => []
  | fuel + 1, c :: rest =>
    match matchPH (c :: rest) with
    | some (name, cv, r) => .ph name cv :: phParseGo fuel r
    | none => .litc c :: phParseGo fuel rest

/-- The placeholder decomposition of a string. -/
def phParse (s : Str) : List MsgSeg := phParseGo s.length s

/-- One element of the token decomposition of a translation found by the
`restore_placeholders` substitution scan: a literal character, or a token
occurrence with the whitespace captured around it. -/
inductive TokSeg where
  | litc : Char → TokSeg
  | tok : Str → Str → Str → TokSeg
deriving DecidableEq

def isTok : TokSeg → Bool
  | .tok _ _ _ => true
  | .litc _ => false

/-- The token decomposition scan, mirroring the `re.sub` scan of
`restore_placeholders` but recording what it sees. -/
def tokParseGo : Nat → Str → List TokSeg
  | 0, _ => []
  | _ + 1, [] => []
  | fuel + 1, c :: rest =>
    match matchToken ((c :: rest).dropWhile pyIsSpace) with
    | some (tok, r) =>
      .tok ((c :: rest).takeWhile pyIsSpace) tok (r.takeWhile pyIsSpace) ::
        tokParseGo fuel (r.dropWhile pyIsSpace)
    | none => .litc c :: tokParseGo fuel rest

/-- The token decomposition of a translation. -/
def tokParse (t : Str) : List TokSeg := tokParseGo t.length t

/-- The number of humanized-token occurrences in a translation. -/
def tokCount (t : Str) : Nat := ((tokParse t).filter isTok).length

/-- Re-assemble a token decomposition, substituting the `i`-th recorded
placeholder triple for the `i`-th token occurrence. -/
def rebuildTok : List (Str × Str × Str) → List TokSeg → Str
  | _, [] => []
  | phs, .litc c :: rest => c :: rebuildTok phs rest
  | [], .tok _ _ _ :: rest => rebuildTok [] rest
  | (a, p, b) :: phs', .tok _ _ _ :: rest => a ++ p ++ b ++ rebuildTok phs' rest

/-- Rendering of a msgid given as a leading literal and a list of
(placeholder, following literal) pairs. -/
def renderShape : Str → List ((Option Str × Char) × Str) → Str
  | h, [] => h
  | h, ((name, cv), l) :: rest => h ++ phText name cv ++ renderShape l rest

/-- The humanized form of the same shape: each placeholder replaced by its
token, the literals untouched. -/
def humanShape : Str → List ((Option Str × Char) × Str) → Str
  | h, [] => h
  | h, ((name, cv), l) :: rest => h ++ phToken name cv ++ humanShape l rest

/-- The maximal all-whitespace suffix of a literal. -/
def wsEnd (l : Str) : Str := (l.reverse.takeWhile pyIsSpace).reverse

/-- The literal with its maximal all-whitespace suffix removed. -/
def wsCore (l : Str) : Str := (l.reverse.dropWhile pyIsSpace).reverse

/-- The whitespace/placeholder/whitespace triples `re.findall` collects on
the rendered shape. -/
def triplesShape : Str → List ((Option Str × Char) × Str) → List (Str × Str × Str)
  | _, [] => []
  | h, ((name, cv), l) :: rest =>
    (wsEnd h, phText name cv, l.takeWhile pyIsSpace) ::
      triplesShape (l.dropWhile pyIsSpace) rest

/-- Literal text that interacts with neither regular expression: it
contains no percent sign and no underscore. -/
def goodLit (l : Str) : Bool := l.all (fun c => !(c = '%') && !(c = '_'))

/-- A placeholder whose conversion is `s` or `d` and whose name, when
present, is a non-empty string of lower-case alphanumeric characters. -/
def goodPH : Option Str × Char → Bool
  | (name, cv) =>
    (cv = 's' || cv = 'd') &&
      (match name with
       | some n => !n.isEmpty && n.all (fun c => c.isAlphanum && c.toLower = c)
       | none => true)

/-- A well-behaved msgid shape: every literal is `goodLit` and every
placeholder is `goodPH`. -/
def goodShape (h : Str) (tail : List ((Option Str × Char) × Str)) : Bool :=
  goodLit h && tail.all (fun pl => goodPH pl.1 && goodLit pl.2)

theorem matchPH_nil : matchPH [] = none := rfl

theorem matchPH_not_percent {c : Char} (rest : Str) (h : c ≠ '%') :
    matchPH (c :: rest) = none := by
  rw [matchPH.eq_def]
  split
  · next heq => injection heq with h1 _; exact absurd h1 h
  · next heq => injection heq with h1 _; exact absurd h1 h
  · rfl

theorem phText_length_ge (name : Option Str) (conv : Char) :
    2 ≤ (phText name conv).length := by
  cases name <;> simp [phText]

/-- A successful placeholder match decomposes the input as the matched text
followed by the remainder, and validates the captured groups. -/
theorem matchPH_spec {s : Str} {name : Option Str} {cv : Char} {r : Str}
    (h : matchPH s = some (name, cv, r)) :
    s = phText name cv ++ r ∧ (cv = 's' ∨ cv = 'd') := by
  rw [matchPH.eq_def] at h
  split at h
  · next rest =>
    split at h
    · exact absurd h (by simp)
    · next hd =>
      split at h
      · next cv' r' hdrop =>
        split at h
        · next hcv =>
          injection h with h'
          injection h' with h1 h2
          injection h2 with h2 h3
          subst h1; subst h2; subst h3
          refine ⟨?_, by simpa using hcv⟩
          simp only [phText, List.cons.injEq, true_and]
          conv_lhs => rw [← List.takeWhile_append_dropWhile (p := pyIsWord) (l := rest), hdrop]
          simp
        · exact absurd h (by simp)
      · exact absurd h (by simp)
  · next cv' rest heq =>
    split at h
    · next hcv =>
      injection h with h'
      injection h' with h1 h2
      injection h2 with h2 h3
      subst h1; subst h2; subst h3
      exact ⟨by simp [phText], by simpa using hcv⟩
    · exact absurd h (by simp)
  · exact absurd h (by simp)

theorem matchPH_length {s : Str} {name : Option Str} {cv : Char} {r : Str}
    (h : matchPH s = some (name, cv, r)) : r.length + 2 ≤ s.length := by
  obtain ⟨hs, -⟩ := matchPH_spec h
  have := phText_length_ge name cv
  subst hs
  simp only [List.length_append]
  omega

theorem matchPH_bare {cv : Char} (hcv : cv = 's' ∨ cv = 'd') (t : Str) :
    matchPH (phText none cv ++ t) = some (none, cv, t) := by
  rcases hcv with h | h <;> subst h <;> rfl

theorem takeWhile_word_stop (cv : Char) (t : Str) :
    List.takeWhile pyIsWord (')' :: cv :: t) = [] := by
  simp [List.takeWhile_cons, pyIsWord, Char.isAlphanum, Char.isAlpha, Char.isUpper,
    Char.isLower, Char.isDigit]

theorem matchPH_named {n : Str} (hn : n ≠ []) (hw : ∀ c ∈ n, pyIsWord c) {cv : Char}
    (hcv : cv = 's' ∨ cv = 'd') (t : Str) :
    matchPH (phText (some n) cv ++ t) = some (some n, cv, t) := by
  have htake : List.takeWhile pyIsWord (n ++ ')' :: cv :: t) = n := by
    rw [List.takeWhile_append_of_pos (fun a ha => hw a ha), takeWhile_word_stop]
    simp
  have hdrop : List.dropWhile pyIsWord (n ++ ')' :: cv :: t) = ')' :: cv :: t := by
    rw [List.dropWhile_append_of_pos (fun a ha => hw a ha)]
    have := takeWhile_word_stop cv t
    rw [List.dropWhile_cons]
    simp only [List.takeWhile_cons] at this
    split at this
    · simp at this
    · next hpw => simp [hpw]
  show matchPH ('%' :: '(' :: (n ++ [')', cv] ++ t)) = some (some n, cv, t)
  have hassoc : n ++ [')', cv] ++ t = n ++ ')' :: cv :: t := by simp
  rw [hassoc, matchPH.eq_def]
  simp only [htake, hdrop, hn, if_neg]
  rcases hcv with h | h <;> subst h <;> simp

theorem humanizeGo_nil (fuel : Nat) : humanizeGo fuel [] = [] := by
  cases fuel <;> rfl

theorem humanizeGo_congr : ∀ (f : Nat) (g : Nat) (s : Str), s.length ≤ f → s.length ≤ g →
    humanizeGo f s = humanizeGo g s := by
  intro f
  induction f with
  | zero =>
    intro g s hf _
    have : s = [] := List.length_eq_zero.mp (Nat.le_zero.mp hf)
    subst this
    simp [humanizeGo_nil]
  | succ f ih =>
    intro g s hf hg
    cases s with
    | nil => simp [humanizeGo_nil]
    | cons c rest =>
      cases g with
      | zero => simp at hg
      | succ g =>
        cases hm : matchPH (c :: rest) with
        | none =>
          simp only [humanizeGo, hm]
          have h1 : rest.length ≤ f := by simp at hf; omega
          have h2 : rest.length ≤ g := by simp at hg; omega
          rw [ih g rest h1 h2]
        | some x =>
          obtain ⟨name, cv, r⟩ := x
          simp only [humanizeGo, hm]
          have hr := matchPH_length hm
          simp only [List.length_cons] at hf hg hr
          rw [ih g r (by omega) (by omega)]

theorem humanize_nil : humanize_placeholders [] = [] := rfl

theorem humanize_cons_none {c : Char} {rest : Str} (hm : matchPH (c :: rest) = none) :
    humanize_placeholders (c :: rest) = c :: humanize_placeholders rest := by
  show humanizeGo (rest.length + 1) (c :: rest) = _
  simp only [humanizeGo, hm]
  rfl

theorem humanize_cons_some {c : Char} {rest : Str} {name : Option Str} {cv : Char} {r : Str}
    (hm : matchPH (c :: rest) = some (name, cv, r)) :
    humanize_placeholders (c :: rest) = phToken name cv ++ humanize_placeholders r := by
  show humanizeGo (rest.length + 1) (c :: rest) = _
  simp only [humanizeGo, hm]
  have hr := matchPH_length hm
  simp only [List.length_cons] at hr
  rw [humanizeGo_congr rest.length r.length r (by omega) (le_refl _)]
  rfl

theorem humanize_skip {u : Str} (hu : ∀ c ∈ u, c ≠ '%') (v : Str) :
    humanize_placeholders (u ++ v) = u ++ humanize_placeholders v := by
  induction u with
  | nil => rfl
  | cons c u' ih =>
    rw [List.cons_append, humanize_cons_none (matchPH_not_percent _ (hu c (by simp))),
      ih (fun d hd => hu d (by simp [hd]))]
    simp

theorem humanize_ph {name : Option Str} {cv : Char}
    (hn : ∀ n, name = some n → n ≠ [] ∧ ∀ c ∈ n, pyIsWord c)
    (hcv : cv = 's' ∨ cv = 'd') (t : Str) :
    humanize_placeholders (phText name cv ++ t) =
      phToken name cv ++ humanize_placeholders t := by
  have hm : matchPH (phText name cv ++ t) = some (name, cv, t) := by
    cases name with
    | none => exact matchPH_bare hcv t
    | some n => exact matchPH_named (hn n rfl).1 (hn n rfl).2 hcv t
  have hne : ∃ c rest, phText name cv ++ t = c :: rest := by
    cases name <;> simp [phText]
  obtain ⟨c, rest, hc⟩ := hne
  rw [hc] at hm ⊢
  rw [humanize_cons_some hm]

theorem tokMid_cons (c : Char) (rest : Str) :
    tokMid (c :: rest) =
      if pyIsWord c then
        if rest.take 2 = ['_', '_'] then some ([c], rest.drop 2)
        else (tokMid rest).map (fun p => (c :: p.1, p.2))
      else none := rfl

theorem tokMid_spec : ∀ {s : Str} {mid r : Str}, tokMid s = some (mid, r) →
    s = mid ++ '_' :: '_' :: r ∧ mid ≠ [] := by
  intro s
  induction s with
  | nil => intro mid r h; simp [tokMid] at h
  | cons c rest ih =>
    intro mid r h
    rw [tokMid_cons] at h
    by_cases hw : pyIsWord c
    · rw [if_pos hw] at h
      by_cases ht : rest.take 2 = ['_', '_']
      · rw [if_pos ht] at h
        injection h with h'
        injection h' with h1 h2
        subst h2
        refine ⟨?_, by simp [← h1]⟩
        rw [← h1]
        have h3 : ('_' : Char) :: '_' :: rest.drop 2 = rest.take 2 ++ rest.drop 2 := by
          rw [ht]; rfl
        simp only [List.cons_append, List.nil_append]
        rw [h3, List.take_append_drop]
      · rw [if_neg ht] at h
        cases htm : tokMid rest with
        | none => rw [htm] at h; exact absurd h (by simp)
        | some p =>
          obtain ⟨mid', r'⟩ := p
          rw [htm] at h
          simp only [Option.map_some'] at h
          injection h with h'
          injection h' with h1 h2
          subst h1; subst h2
          obtain ⟨hs, hne⟩ := ih htm
          simp [hs]
    · rw [if_neg hw] at h
      exact absurd h (by simp)

theorem matchToken_spec : ∀ {s tok r : Str}, matchToken s = some (tok, r) →
    s = tok ++ r ∧ ∃ mid, mid ≠ [] ∧ tok = '_' :: '_' :: (mid ++ ['_', '_']) := by
  intro s tok r h
  rw [matchToken.eq_def] at h
  split at h
  · next rest =>
    cases htm : tokMid rest with
    | none => rw [htm] at h; exact absurd h (by simp)
    | some p =>
      obtain ⟨mid, r'⟩ := p
      rw [htm] at h
      simp only [Option.map_some'] at h
      injection h with h'
      injection h' with h1 h2
      subst h1; subst h2
      obtain ⟨hs, hne⟩ := tokMid_spec htm
      subst hs
      exact ⟨by simp, mid, hne, rfl⟩
  · exact absurd h (by simp)

theorem matchToken_length {s tok r : Str} (h : matchToken s = some (tok, r)) :
    r.length + 5 ≤ s.length := by
  obtain ⟨hs, mid, hne, htok⟩ := matchToken_spec h
  subst hs; subst htok
  have : 1 ≤ mid.length := by
    cases mid with
    | nil => exact absurd rfl hne
    | cons _ _ => simp
  simp only [List.length_append, List.length_cons]
  simp at this ⊢
  omega

theorem matchToken_not_underscore {c : Char} (rest : Str) (h : c ≠ '_') :
    matchToken (c :: rest) = none := by
  rw [matchToken.eq_def]
  split
  · next heq => injection heq with h1 _; exact absurd h1 h
  · rfl

theorem matchToken_nil : matchToken [] = none := rfl

/-- Lemma: `tokMid` finds exactly an alphanumeric core when one is followed by the
closing underscores (the non-greedy `+?` stops at the first `__`). -/
theorem tokMid_alnum : ∀ {mid : Str}, mid ≠ [] → (∀ c ∈ mid, c.isAlphanum) →
    ∀ t, tokMid (mid ++ '_' :: '_' :: t) = some (mid, t) := by
  intro mid
  induction mid with
  | nil => intro h _ _; exact absurd rfl h
  | cons m mid' ih =>
    intro _ hal t
    have hm : pyIsWord m := by simp [pyIsWord, hal m (by simp)]
    cases mid' with
    | nil => simp [tokMid_cons, hm]
    | cons d mid'' =>
      have hd : d ≠ '_' := by
        intro hcon
        have := hal d (by simp)
        rw [hcon] at this
        exact absurd this (by decide)
      rw [List.cons_append, tokMid_cons, if_pos hm]
      have hne2 : (d :: mid'' ++ '_' :: '_' :: t).take 2 ≠ ['_', '_'] := by
        intro hcon
        rw [List.cons_append] at hcon
        have hstep : List.take 2 (d :: (mid'' ++ '_' :: '_' :: t)) =
            d :: List.take 1 (mid'' ++ '_' :: '_' :: t) := rfl
        rw [hstep] at hcon
        injection hcon with h1 _
        exact absurd h1 hd
      rw [if_neg hne2, ih (by simp) (fun c hc => hal c (by simp [hc]))]
      simp

/-- Matching the token regex against a well-formed humanized token followed
by anything. -/
theorem matchToken_tok {mid : Str} (hne : mid ≠ []) (hal : ∀ c ∈ mid, c.isAlphanum)
    (t : Str) :
    matchToken ('_' :: '_' :: (mid ++ ['_', '_']) ++ t) =
      some ('_' :: '_' :: (mid ++ ['_', '_']), t) := by
  show matchToken ('_' :: '_' :: (mid ++ ['_', '_'] ++ t)) = _
  have : mid ++ ['_', '_'] ++ t = mid ++ '_' :: '_' :: t := by simp
  rw [this]
  simp only [matchToken]
  rw [tokMid_alnum hne hal t]
  simp

theorem findallGo_nil (fuel : Nat) : findallGo fuel [] = [] := by
  cases fuel <;> rfl

theorem length_dropWhile_le (p : Char → Bool) (s : Str) :
    (s.dropWhile p).length ≤ s.length :=
  List.Sublist.length_le (List.dropWhile_sublist p)

theorem findallGo_congr : ∀ (f : Nat) (g : Nat) (s : Str), s.length ≤ f → s.length ≤ g →
    findallGo f s = findallGo g s := by
  intro f
  induction f with
  | zero =>
    intro g s hf _
    have : s = [] := List.length_eq_zero.mp (Nat.le_zero.mp hf)
    subst this
    simp [findallGo_nil]
  | succ f ih =>
    intro g s hf hg
    cases s with
    | nil => simp [findallGo_nil]
    | cons c rest =>
      cases g with
      | zero => simp at hg
      | succ g =>
        cases hm : matchPH ((c :: rest).dropWhile pyIsSpace) with
        | none =>
          simp only [findallGo, hm]
          have h1 : rest.length ≤ f := by simp at hf; omega
          have h2 : rest.length ≤ g := by simp at hg; omega
          rw [ih g rest h1 h2]
        | some x =>
          obtain ⟨name, cv, r⟩ := x
          simp only [findallGo, hm]
          have hr := matchPH_length hm
          have hd := length_dropWhile_le pyIsSpace (c :: rest)
          have hd2 := length_dropWhile_le pyIsSpace r
          simp only [List.length_cons] at hf hg hd
          rw [ih g (r.dropWhile pyIsSpace) (by omega) (by omega)]

theorem findallPH_nil : findallPH [] = [] := rfl

theorem findallPH_cons_none {c : Char} {rest : Str}
    (hm : matchPH ((c :: rest).dropWhile pyIsSpace) = none) :
    findallPH (c :: rest) = findallPH rest := by
  show findallGo (rest.length + 1) (c :: rest) = _
  simp only [findallGo, hm]
  rfl

theorem findallPH_cons_some {c : Char} {rest : Str} {name : Option Str} {cv : Char} {r : Str}
    (hm : matchPH ((c :: rest).dropWhile pyIsSpace) = some (name, cv, r)) :
    findallPH (c :: rest) =
      ((c :: rest).takeWhile pyIsSpace, phText name cv, r.takeWhile pyIsSpace) ::
        findallPH (r.dropWhile pyIsSpace) := by
  show findallGo (rest.length + 1) (c :: rest) = _
  simp only [findallGo, hm]
  have hr := matchPH_length hm
  have hd := length_dropWhile_le pyIsSpace (c :: rest)
  have hd2 := length_dropWhile_le pyIsSpace r
  simp only [List.length_cons] at hd
  rw [findallGo_congr rest.length (r.dropWhile pyIsSpace).length (r.dropWhile pyIsSpace)
    (by omega) (le_refl _)]
  rfl

theorem subGo_nil (fuel : Nat) (phs : List (Str × Str × Str)) : subGo fuel phs [] = some [] := by
  cases fuel <;> rfl

theorem subGo_congr : ∀ (f : Nat) (g : Nat) (phs : List (Str × Str × Str)) (s : Str),
    s.length ≤ f → s.length ≤ g → subGo f phs s = subGo g phs s := by
  intro f
  induction f with
  | zero =>
    intro g phs s hf _
    have : s = [] := List.length_eq_zero.mp (Nat.le_zero.mp hf)
    subst this
    simp [subGo_nil]
  | succ f ih =>
    intro g phs s hf hg
    cases s with
    | nil => simp [subGo_nil]
    | cons c rest =>
      cases g with
      | zero => simp at hg
      | succ g =>
        cases hm : matchToken ((c :: rest).dropWhile pyIsSpace) with
        | none =>
          simp only [subGo, hm]
          have h1 : rest.length ≤ f := by simp at hf; omega
          have h2 : rest.length ≤ g := by simp at hg; omega
          rw [ih g phs rest h1 h2]
        | some x =>
          obtain ⟨tok, r⟩ := x
          cases phs with
          | nil => simp only [subGo, hm]
          | cons ph phs' =>
            obtain ⟨a, p, b⟩ := ph
            simp only [subGo, hm]
            have hr := matchToken_length hm
            have hd := length_dropWhile_le pyIsSpace (c :: rest)
            have hd2 := length_dropWhile_le pyIsSpace r
            simp only [List.length_cons] at hf hg hd
            rw [ih g phs' (r.dropWhile pyIsSpace) (by omega) (by omega)]

theorem subTokens_nil (phs : List (Str × Str × Str)) : subTokens phs [] = some [] := rfl

theorem subTokens_cons_none {c : Char} {rest : Str} (phs : List (Str × Str × Str))
    (hm : matchToken ((c :: rest).dropWhile pyIsSpace) = none) :
    subTokens phs (c :: rest) = (subTokens phs rest).map (fun out => c :: out) := by
  show subGo (rest.length + 1) phs (c :: rest) = _
  simp only [subGo, hm]
  rfl

theorem subTokens_cons_some_nil {c : Char} {rest : Str} {tok r : Str}
    (hm : matchToken ((c :: rest).dropWhile pyIsSpace) = some (tok, r)) :
    subTokens [] (c :: rest) = none := by
  show subGo (rest.length + 1) [] (c :: rest) = _
  simp only [subGo, hm]

theorem subTokens_cons_some {c : Char} {rest : Str} {tok r : Str} {a p b : Str}
    (phs' : List (Str × Str × Str))
    (hm : matchToken ((c :: rest).dropWhile pyIsSpace) = some (tok, r)) :
    subTokens ((a, p, b) :: phs') (c :: rest) =
      (subTokens phs' (r.dropWhile pyIsSpace)).map (fun out => a ++ p ++ b ++ out) := by
  show subGo (rest.length + 1) ((a, p, b) :: phs') (c :: rest) = _
  simp only [subGo, hm]
  have hr := matchToken_length hm
  have hd := length_dropWhile_le pyIsSpace (c :: rest)
  have hd2 := length_dropWhile_le pyIsSpace r
  simp only [List.length_cons] at hd
  rw [subGo_congr rest.length (r.dropWhile pyIsSpace).length phs' (r.dropWhile pyIsSpace)
    (by omega) (le_refl _)]
  rfl

theorem get_strings_length (cfg : Config) : ∀ po : List POEntry,
    (get_strings_to_translate cfg po).length = neededCount cfg po := by
  intro po
  induction po with
  | nil => rfl
  | cons e es ih =>
    simp only [get_strings_to_translate, neededCount]
    by_cases hne : need_translate cfg e
    · rw [if_pos hne, if_pos hne]
      by_cases hp : e.msgid_plural ≠ []
      · rw [if_pos hp, if_pos hp]
        simp [ih]
        omega
      · rw [if_neg hp, if_neg hp]
        simp [ih]
        omega
    · rw [if_neg hne, if_neg hne]
      simp [ih]

theorem neededCount_filter (cfg : Config) : ∀ po : List POEntry,
    neededCount cfg (po.filter (fun e => need_translate cfg e)) = neededCount cfg po := by
  intro po
  induction po with
  | nil => rfl
  | cons e es ih =>
    by_cases hne : need_translate cfg e
    · rw [List.filter_cons_of_pos hne]
      simp only [neededCount, hne, if_true, ih]
    · rw [List.filter_cons_of_neg (by simpa using hne)]
      simp only [neededCount, hne, if_false, ih]
      simp [hne]

theorem neededCount_split (cfg : Config) : ∀ po : List POEntry,
    neededCount cfg po =
      (po.filter (fun e => need_translate cfg e)).length +
        (po.filter (fun e => need_translate cfg e && e.msgid_plural ≠ [])).length := by
  intro po
  induction po with
  | nil => rfl
  | cons e es ih =>
    simp only [neededCount, List.filter_cons]
    by_cases hne : need_translate cfg e
    · by_cases hp : e.msgid_plural ≠ []
      · simp [hne, hp, ih]
        omega
      · have hp' : e.msgid_plural = [] := not_ne_iff.mp hp
        simp [hne, hp', ih]
        omega
    · have hne' : need_translate cfg e = false := by simpa using hne
      simp [hne', ih]

theorem applyEntry_spec {e : POEntry} {ts : List Str} {e1 : POEntry} {ts1 : List Str}
    (h : applyEntry e ts = some (e1, ts1)) :
    ts1 = ts.drop (if e.msgid_plural ≠ [] then 2 else 1) ∧
      (if e.msgid_plural ≠ [] then 2 else 1) ≤ ts.length ∧
      e1.flags = e.flags := by
  cases ts with
  | nil => exact absurd h (by simp [applyEntry])
  | cons t1 ts' =>
    simp only [applyEntry] at h
    by_cases hp : e.msgid_plural ≠ []
    · rw [if_pos hp] at h
      split at h
      · exact absurd h (by simp)
      · next f1 hf1 =>
        split at h
        · exact absurd h (by simp)
        · next t2 ts2 =>
          split at h
          · exact absurd h (by simp)
          · next f2 hf2 =>
            injection h with h'
            injection h' with h1 h2
            subst h1; subst h2
            refine ⟨by simp [hp], by simp [hp], rfl⟩
    · rw [if_neg hp] at h
      split at h
      · exact absurd h (by simp)
      · next f1 hf1 =>
        injection h with h'
        injection h' with h1 h2
        subst h1; subst h2
        refine ⟨by simp [hp], by simp [hp], rfl⟩

theorem applyEntry_short {e : POEntry} {ts : List Str}
    (h : ts.length < (if e.msgid_plural ≠ [] then 2 else 1)) :
    applyEntry e ts = none := by
  cases hr : applyEntry e ts with
  | none => rfl
  | some p =>
    obtain ⟨e1, ts1⟩ := p
    obtain ⟨-, hle, -⟩ := applyEntry_spec hr
    omega

/-- A successful `update_translations` run consumes exactly `neededCount`
translations off the front of the list. -/
theorem update_rest (cfg : Config) : ∀ (po : List POEntry) (ts : List Str)
    (po' : List POEntry) (rest : List Str),
    update_translations cfg po ts = some (po', rest) →
    rest = ts.drop (neededCount cfg po) ∧ neededCount cfg po ≤ ts.length := by
  intro po
  induction po with
  | nil =>
    intro ts po' rest h
    simp only [update_translations] at h
    injection h with h'
    injection h' with h1 h2
    subst h2
    simp [neededCount]
  | cons e es ih =>
    intro ts po' rest h
    simp only [update_translations] at h
    by_cases hne : need_translate cfg e
    · rw [if_pos hne] at h
      split at h
      · exact absurd h (by simp)
      · next e1 ts1 ha =>
        split at h
        · exact absurd h (by simp)
        · next es1 rest1 hu =>
          injection h with h'
          injection h' with h1 h2
          subst h2
          obtain ⟨hd, hle, -⟩ := applyEntry_spec ha
          obtain ⟨hd', hle'⟩ := ih ts1 es1 rest1 hu
          subst hd
          constructor
          · rw [hd', List.drop_drop]
            have harith : (if e.msgid_plural ≠ [] then 2 else 1) + neededCount cfg es =
                neededCount cfg (e :: es) := by
              simp only [neededCount, hne, if_true]
            rw [harith]
          · simp only [neededCount, hne, if_true]
            have := List.length_drop (if e.msgid_plural ≠ [] then 2 else 1) ts
            omega
    · rw [if_neg hne] at h
      split at h
      · exact absurd h (by simp)
      · next es1 rest1 hu =>
        injection h with h'
        injection h' with h1 h2
        subst h2
        obtain ⟨hd', hle'⟩ := ih ts es1 rest1 hu
        have hne' : need_translate cfg e = false := by simpa using hne
        simp [neededCount, hne', hd', hle']

/-- When the translation list is shorter than what the entries require,
`update_translations` raises (`StopIteration` propagates). -/
theorem update_short (cfg : Config) : ∀ (po : List POEntry) (ts : List Str),
    ts.length < neededCount cfg po →
    update_translations cfg po ts = none := by
  intro po ts h
  cases hr : update_translations cfg po ts with
  | none => rfl
  | some p =>
    obtain ⟨po', rest⟩ := p
    obtain ⟨-, hle⟩ := update_rest cfg po ts po' rest hr
    omega

theorem setFuzzy_flags (cfg : Config) (e : POEntry) :
    (setFuzzy cfg e).flags =
      if cfg.set_fuzzy && !(e.flags.contains "fuzzy".data) then e.flags ++ ["fuzzy".data]
      else e.flags := by
  unfold setFuzzy
  split <;> rfl

theorem setFuzzy_msgstr_plural (cfg : Config) (e : POEntry) :
    (setFuzzy cfg e).msgstr_plural = e.msgstr_plural := by
  unfold setFuzzy
  split <;> rfl

theorem setFuzzy_msgstr (cfg : Config) (e : POEntry) :
    (setFuzzy cfg e).msgstr = e.msgstr := by
  unfold setFuzzy
  split <;> rfl

theorem update_forall2 (cfg : Config) : ∀ (po : List POEntry) (ts : List Str)
    (po' : List POEntry) (rest : List Str),
    update_translations cfg po ts = some (po', rest) →
    List.Forall₂ (entryStep cfg) po po' := by
  intro po
  induction po with
  | nil =>
    intro ts po' rest h
    simp only [update_translations] at h
    injection h with h'
    injection h' with h1 h2
    subst h1
    exact List.Forall₂.nil
  | cons e es ih =>
    intro ts po' rest h
    simp only [update_translations] at h
    by_cases hne : need_translate cfg e
    · rw [if_pos hne] at h
      split at h
      · exact absurd h (by simp)
      · next e1 ts1 ha =>
        split at h
        · exact absurd h (by simp)
        · next es1 rest1 hu =>
          injection h with h'
          injection h' with h1 h2
          subst h1
          refine List.Forall₂.cons ?_ (ih ts1 es1 rest1 hu)
          obtain ⟨-, -, hflags⟩ := applyEntry_spec ha
          constructor
          · intro hcon; rw [hcon] at hne; cases hne
          · intro _
            rw [setFuzzy_flags, hflags]
    · rw [if_neg hne] at h
      split at h
      · exact absurd h (by simp)
      · next es1 rest1 hu =>
        injection h with h'
        injection h' with h1 h2
        subst h1
        refine List.Forall₂.cons ?_ (ih ts es1 rest1 hu)
        exact ⟨fun _ => rfl, fun hcon => absurd hcon (by simpa using hne)⟩

theorem dictGet_cons (k' : Nat) (v' : Str) (m : List (Nat × Str)) (k : Nat) :
    dictGet ((k', v') :: m) k = if k' = k then some v' else dictGet m k := by
  simp only [dictGet, List.find?_cons]
  by_cases h : k' = k
  · simp [h]
  · simp [h]

theorem dictGet_mapNonzero (f2 : Str) : ∀ (m : List (Nat × Str)) (k : Nat),
    dictGet (m.map (fun p => if p.1 ≠ 0 then (p.1, f2) else p)) k =
      (dictGet m k).map (fun v => if k ≠ 0 then f2 else v) := by
  intro m
  induction m with
  | nil => intro k; rfl
  | cons p m ih =>
    intro k
    obtain ⟨k', v'⟩ := p
    simp only [List.map_cons]
    by_cases hz : k' = 0
    · subst hz
      rw [show (if ((0, v') : Nat × Str).1 ≠ 0 then (((0, v') : Nat × Str).1, f2)
          else ((0 : Nat), v')) = (0, v') from by simp]
      rw [dictGet_cons, dictGet_cons]
      by_cases hk : (0 : Nat) = k
      · subst hk
        simp
      · rw [if_neg hk, if_neg hk, ih k]
    · rw [show (if ((k', v') : Nat × Str).1 ≠ 0 then (((k', v') : Nat × Str).1, f2)
          else (k', v')) = (k', f2) from by simp [hz]]
      rw [dictGet_cons, dictGet_cons]
      by_cases hk : k' = k
      · subst hk
        rw [if_pos rfl, if_pos rfl]
        simp [hz]
      · rw [if_neg hk, if_neg hk, ih k]

theorem dictGet_mapSet_same {k : Nat} {v : Str} : ∀ m : List (Nat × Str),
    m.any (fun p => p.1 = k) = true →
    dictGet (m.map (fun p => if p.1 = k then (k, v) else p)) k = some v := by
  intro m
  induction m with
  | nil => intro h; cases h
  | cons p m ih =>
    intro h
    obtain ⟨k', v'⟩ := p
    simp only [List.map_cons]
    by_cases hk : k' = k
    · subst hk
      rw [show (if ((k', v') : Nat × Str).1 = k' then (k', v) else (k', v')) = (k', v)
          from by simp]
      rw [dictGet_cons, if_pos rfl]
    · rw [show (if ((k', v') : Nat × Str).1 = k then (k, v) else (k', v')) = (k', v')
          from by simp [hk]]
      rw [dictGet_cons, if_neg hk]
      apply ih
      simp only [List.any_cons] at h
      simpa [hk] using h

theorem dictGet_appendSet_same {k : Nat} {v : Str} : ∀ m : List (Nat × Str),
    m.any (fun p => p.1 = k) = false →
    dictGet (m ++ [(k, v)]) k = some v := by
  intro m
  induction m with
  | nil => intro _; rw [List.nil_append, dictGet_cons, if_pos rfl]
  | cons p m ih =>
    intro h
    obtain ⟨k', v'⟩ := p
    simp only [List.any_cons, Bool.or_eq_false_iff] at h
    obtain ⟨h1, h2⟩ := h
    rw [List.cons_append, dictGet_cons, if_neg (by simpa using h1)]
    exact ih h2

theorem dictGet_dictSet_same (m : List (Nat × Str)) (k : Nat) (v : Str) :
    dictGet (dictSet m k v) k = some v := by
  unfold dictSet
  split
  · next hany => exact dictGet_mapSet_same m hany
  · next hany => exact dictGet_appendSet_same m (Bool.eq_false_iff.mpr hany)

theorem dictGet_mapSet {k : Nat} {v : Str} {j : Nat} (hj : j ≠ k) :
    ∀ m : List (Nat × Str),
    dictGet (m.map (fun p => if p.1 = k then (k, v) else p)) j = dictGet m j := by
  intro m
  induction m with
  | nil => rfl
  | cons p m ih =>
    obtain ⟨k', v'⟩ := p
    simp only [List.map_cons]
    by_cases hk : k' = k
    · subst hk
      rw [show (if ((k', v') : Nat × Str).1 = k' then (k', v) else (k', v')) = (k', v)
          from by simp]
      rw [dictGet_cons, dictGet_cons, if_neg (fun hc => hj hc.symm),
        if_neg (fun hc => hj hc.symm), ih]
    · rw [show (if ((k', v') : Nat × Str).1 = k then (k, v) else (k', v')) = (k', v')
          from by simp [hk]]
      rw [dictGet_cons, dictGet_cons, ih]

theorem dictGet_appendSet {k : Nat} {v : Str} {j : Nat} (hj : j ≠ k) :
    ∀ m : List (Nat × Str), dictGet (m ++ [(k, v)]) j = dictGet m j := by
  intro m
  induction m with
  | nil =>
    rw [List.nil_append, dictGet_cons, if_neg (fun hc => hj hc.symm)]
  | cons p m ih =>
    obtain ⟨k', v'⟩ := p
    rw [List.cons_append, dictGet_cons, dictGet_cons, ih]

theorem dictGet_dictSet_other (m : List (Nat × Str)) (k : Nat) (v : Str) (j : Nat)
    (hj : j ≠ k) : dictGet (dictSet m k v) j = dictGet m j := by
  unfold dictSet
  split
  · exact dictGet_mapSet hj m
  · exact dictGet_appendSet hj m

theorem applyEntry_plural {e : POEntry} {t1 t2 : Str} (ts2 : List Str) {f1 f2 : Str}
    (hp : e.msgid_plural ≠ [])
    (hf1 : fix_translation e.msgid t1 = some f1)
    (hf2 : fix_translation e.msgid_plural t2 = some f2) :
    applyEntry e (t1 :: t2 :: ts2) =
      some ({ e with msgstr_plural :=
        (dictSet e.msgstr_plural 0 f1).map (fun p => if p.1 ≠ 0 then (p.1, f2) else p) },
        ts2) := by
  simp only [applyEntry, hp, if_true, hf1, hf2]
  rw [if_pos hp]

theorem update_cons_need {cfg : Config} {e : POEntry} (es : List POEntry) {ts : List Str}
    {e1 : POEntry} {ts1 : List Str}
    (hne : need_translate cfg e = true) (ha : applyEntry e ts = some (e1, ts1)) :
    update_translations cfg (e :: es) ts =
      match update_translations cfg es ts1 with
      | none => none
      | some (es1, rest) => some (setFuzzy cfg e1 :: es1, rest) := by
  simp only [update_translations, hne, if_true, ha]

theorem phText_head (name : Option Str) (cv : Char) :
    ∃ t, phText name cv = '%' :: t := by
  cases name <;> simp [phText]

theorem phToken_head (name : Option Str) (cv : Char) :
    ∃ t, phToken name cv = '_' :: t := by
  cases name with
  | none =>
    by_cases h : cv = 'd' <;> simp [phToken, h]
  | some n => simp [phToken]

theorem phText_last (name : Option Str) (cv : Char) :
    (phText name cv).getLast? = some cv := by
  cases name with
  | none => rfl
  | some n =>
    show (('%' :: '(' :: n) ++ [')', cv]).getLast? = some cv
    rw [List.getLast?_append]
    rfl

theorem phToken_last (name : Option Str) (cv : Char) :
    (phToken name cv).getLast? = some '_' := by
  cases name with
  | none => by_cases h : cv = 'd' <;> simp [phToken, h]
  | some n =>
    show (('_' :: '_' :: n.map Char.toLower) ++ ['_', '_']).getLast? = some '_'
    rw [List.getLast?_append]
    rfl

theorem humanize_ne_nil {c : Char} (rest : Str) :
    humanize_placeholders (c :: rest) ≠ [] := by
  cases hm : matchPH (c :: rest) with
  | none => rw [humanize_cons_none hm]; simp
  | some x =>
    obtain ⟨name, cv, r⟩ := x
    rw [humanize_cons_some hm]
    obtain ⟨t, ht⟩ := phToken_head name cv
    rw [ht]
    simp

/-- Lemma: `humanize_placeholders` preserves whether the string starts with a
newline (a match can only start at `%`). -/
theorem humanize_startsWithNL (s : Str) :
    startsWithNL (humanize_placeholders s) = startsWithNL s := by
  cases s with
  | nil => rfl
  | cons c rest =>
    cases hm : matchPH (c :: rest) with
    | none =>
      rw [humanize_cons_none hm]
      rfl
    | some x =>
      obtain ⟨name, cv, r⟩ := x
      rw [humanize_cons_some hm]
      obtain ⟨hs, -⟩ := matchPH_spec hm
      obtain ⟨t, ht⟩ := phToken_head name cv
      obtain ⟨t', ht'⟩ := phText_head name cv
      have h1 : startsWithNL (phToken name cv ++ humanize_placeholders r) = false := by
        rw [ht]
        simp [startsWithNL]
      have h2 : startsWithNL (c :: rest) = false := by
        have hc : c = '%' := by
          have h3 := hs
          rw [ht'] at h3
          simp only [List.cons_append, List.cons.injEq] at h3
          exact h3.1
        simp [startsWithNL, hc]
      rw [h1, h2]

theorem endsWithNL_append {b : Str} (a : Str) (hb : b ≠ []) :
    endsWithNL (a ++ b) = endsWithNL b := by
  unfold endsWithNL
  cases b with
  | nil => exact absurd rfl hb
  | cons x xs =>
    rw [List.getLast?_append]
    have hsome : (x :: xs).getLast?.isSome := by
      rw [List.getLast?_isSome]
      simp
    obtain ⟨v, hv⟩ := Option.isSome_iff_exists.mp hsome
    rw [hv]
    rfl

/-- Lemma: `humanize_placeholders` preserves whether the string ends with a
newline (a match can only end at `s` or `d`, and a token ends at `_`). -/
theorem humanize_endsWithNL_bounded : ∀ (n : Nat) (s : Str), s.length ≤ n →
    endsWithNL (humanize_placeholders s) = endsWithNL s := by
  intro n
  induction n with
  | zero =>
    intro s hs
    have : s = [] := List.length_eq_zero.mp (Nat.le_zero.mp hs)
    subst this
    rfl
  | succ n ih =>
    intro s hs
    cases s with
    | nil => rfl
    | cons c rest =>
      cases hm : matchPH (c :: rest) with
      | none =>
        rw [humanize_cons_none hm]
        cases hr : rest with
        | nil => rfl
        | cons d rest' =>
          subst hr
          have hne : humanize_placeholders (d :: rest') ≠ [] := humanize_ne_nil rest'
          have e1 : endsWithNL (c :: humanize_placeholders (d :: rest')) =
              endsWithNL (humanize_placeholders (d :: rest')) :=
            endsWithNL_append [c] hne
          have e2 : endsWithNL (c :: d :: rest') = endsWithNL (d :: rest') :=
            endsWithNL_append [c] (by simp)
          rw [e1, e2]
          exact ih (d :: rest') (by simp at hs ⊢; omega)
      | some x =>
        obtain ⟨name, cv, r⟩ := x
        rw [humanize_cons_some hm]
        obtain ⟨hs', hcv⟩ := matchPH_spec hm
        have hlen := matchPH_length hm
        cases hr : r with
        | nil =>
          subst hr
          rw [humanize_nil, List.append_nil]
          have e1 : endsWithNL (phToken name cv) = false := by
            unfold endsWithNL
            rw [phToken_last]
            decide
          have e2 : endsWithNL (c :: rest) = false := by
            rw [hs', List.append_nil]
            unfold endsWithNL
            rw [phText_last]
            rcases hcv with h | h <;> subst h <;> decide
          rw [e1, e2]
        | cons d r' =>
          subst hr
          have hne : humanize_placeholders (d :: r') ≠ [] := humanize_ne_nil r'
          have e1 : endsWithNL (phToken name cv ++ humanize_placeholders (d :: r')) =
              endsWithNL (humanize_placeholders (d :: r')) :=
            endsWithNL_append _ hne
          have e2 : endsWithNL (c :: rest) = endsWithNL (d :: r') := by
            rw [hs']
            exact endsWithNL_append _ (by simp)
          rw [e1, e2]
          refine ih (d :: r') ?_
          simp only [List.length_cons] at hs hlen ⊢
          omega

theorem humanize_endsWithNL (s : Str) :
    endsWithNL (humanize_placeholders s) = endsWithNL s :=
  humanize_endsWithNL_bounded s.length s (le_refl _)

/-- The newline-repair steps are the identity on the humanized form of the
msgid itself: humanizing changes neither the leading nor the trailing
newline status. -/
theorem fixNewlines_humanize (m : Str) :
    fixNewlines m (humanize_placeholders m) = humanize_placeholders m := by
  unfold fixNewlines
  cases h1 : startsWithNL m <;> cases h2 : endsWithNL m <;>
    simp [humanize_startsWithNL, humanize_endsWithNL, h1, h2]

theorem phParseGo_congr : ∀ (f : Nat) (g : Nat) (s : Str), s.length ≤ f → s.length ≤ g →
    phParseGo f s = phParseGo g s := by
  intro f
  induction f with
  | zero =>
    intro g s hf _
    have : s = [] := List.length_eq_zero.mp (Nat.le_zero.mp hf)
    subst this
    cases g <;> rfl
  | succ f ih =>
    intro g s hf hg
    cases s with
    | nil => cases g <;> rfl
    | cons c rest =>
      cases g with
      | zero => simp at hg
      | succ g =>
        cases hm : matchPH (c :: rest) with
        | none =>
          simp only [phParseGo, hm]
          have h1 : rest.length ≤ f := by simp at hf; omega
          have h2 : rest.length ≤ g := by simp at hg; omega
          rw [ih g rest h1 h2]
        | some x =>
          obtain ⟨name, cv, r⟩ := x
          simp only [phParseGo, hm]
          have hr := matchPH_length hm
          simp only [List.length_cons] at hf hg hr
          rw [ih g r (by omega) (by omega)]

theorem phParse_cons_none {c : Char} {rest : Str} (hm : matchPH (c :: rest) = none) :
    phParse (c :: rest) = .litc c :: phParse rest := by
  show phParseGo (rest.length + 1) (c :: rest) = _
  simp only [phParseGo, hm]
  rfl

theorem phParse_cons_some {c : Char} {rest : Str} {name : Option Str} {cv : Char} {r : Str}
    (hm : matchPH (c :: rest) = some (name, cv, r)) :
    phParse (c :: rest) = .ph name cv :: phParse r := by
  show phParseGo (rest.length + 1) (c :: rest) = _
  simp only [phParseGo, hm]
  have hr := matchPH_length hm
  simp only [List.length_cons] at hr
  rw [phParseGo_congr rest.length r.length r (by omega) (le_refl _)]
  rfl

theorem phParse_spec : ∀ (n : Nat) (s : Str), s.length ≤ n →
    ((phParse s).map segText).flatten = s ∧
      humanize_placeholders s = ((phParse s).map segToken).flatten ∧
      (∀ name cv, MsgSeg.ph name cv ∈ phParse s → (cv = 's' ∨ cv = 'd')) := by
  intro n
  induction n with
  | zero =>
    intro s hs
    have : s = [] := List.length_eq_zero.mp (Nat.le_zero.mp hs)
    subst this
    exact ⟨rfl, rfl, by intro name cv h; cases h⟩
  | succ n ih =>
    intro s hs
    cases s with
    | nil => exact ⟨rfl, rfl, by intro name cv h; cases h⟩
    | cons c rest =>
      cases hm : matchPH (c :: rest) with
      | none =>
        rw [phParse_cons_none hm, humanize_cons_none hm]
        obtain ⟨h1, h2, h3⟩ := ih rest (by simp at hs; omega)
        refine ⟨?_, ?_, ?_⟩
        · simp [segText, h1]
        · simp [segToken, ← h2]
        · intro name cv hmem
          simp only [List.mem_cons] at hmem
          rcases hmem with hmem | hmem
          · cases hmem
          · exact h3 name cv hmem
      | some x =>
        obtain ⟨name, cv, r⟩ := x
        rw [phParse_cons_some hm, humanize_cons_some hm]
        have hr := matchPH_length hm
        obtain ⟨h1, h2, h3⟩ := ih r (by simp at hs hr ⊢; omega)
        obtain ⟨hs', hcv⟩ := matchPH_spec hm
        refine ⟨?_, ?_, ?_⟩
        · simp only [List.map_cons, List.flatten_cons, segText, h1]
          exact hs'.symm
        · simp [segToken, ← h2]
        · intro name' cv' hmem
          simp only [List.mem_cons] at hmem
          rcases hmem with hmem | hmem
          · injection hmem with e1 e2
            subst e2
            exact hcv
          · exact h3 name' cv' hmem

theorem rebuildTok_nil (phs : List (Str × Str × Str)) : rebuildTok phs [] = [] := by
  cases phs with
  | nil => rfl
  | cons ph phs' => obtain ⟨a, p, b⟩ := ph; rfl

theorem rebuildTok_litc (phs : List (Str × Str × Str)) (c : Char) (segs : List TokSeg) :
    rebuildTok phs (.litc c :: segs) = c :: rebuildTok phs segs := by
  cases phs with
  | nil => rfl
  | cons ph phs' => obtain ⟨a, p, b⟩ := ph; rfl

theorem tokParseGo_congr : ∀ (f : Nat) (g : Nat) (s : Str), s.length ≤ f → s.length ≤ g →
    tokParseGo f s = tokParseGo g s := by
  intro f
  induction f with
  | zero =>
    intro g s hf _
    have : s = [] := List.length_eq_zero.mp (Nat.le_zero.mp hf)
    subst this
    cases g <;> rfl
  | succ f ih =>
    intro g s hf hg
    cases s with
    | nil => cases g <;> rfl
    | cons c rest =>
      cases g with
      | zero => simp at hg
      | succ g =>
        cases hm : matchToken ((c :: rest).dropWhile pyIsSpace) with
        | none =>
          simp only [tokParseGo, hm]
          have h1 : rest.length ≤ f := by simp at hf; omega
          have h2 : rest.length ≤ g := by simp at hg; omega
          rw [ih g rest h1 h2]
        | some x =>
          obtain ⟨tok, r⟩ := x
          simp only [tokParseGo, hm]
          have hr := matchToken_length hm
          have hd := length_dropWhile_le pyIsSpace (c :: rest)
          have hd2 := length_dropWhile_le pyIsSpace r
          simp only [List.length_cons] at hf hg hd
          rw [ih g (r.dropWhile pyIsSpace) (by omega) (by omega)]

theorem tokParse_cons_none {c : Char} {rest : Str}
    (hm : matchToken ((c :: rest).dropWhile pyIsSpace) = none) :
    tokParse (c :: rest) = .litc c :: tokParse rest := by
  show tokParseGo (rest.length + 1) (c :: rest) = _
  simp only [tokParseGo, hm]
  rfl

theorem tokParse_cons_some {c : Char} {rest : Str} {tok r : Str}
    (hm : matchToken ((c :: rest).dropWhile pyIsSpace) = some (tok, r)) :
    tokParse (c :: rest) =
      .tok ((c :: rest).takeWhile pyIsSpace) tok (r.takeWhile pyIsSpace) ::
        tokParse (r.dropWhile pyIsSpace) := by
  show tokParseGo (rest.length + 1) (c :: rest) = _
  simp only [tokParseGo, hm]
  have hr := matchToken_length hm
  have hd := length_dropWhile_le pyIsSpace (c :: rest)
  have hd2 := length_dropWhile_le pyIsSpace r
  simp only [List.length_cons] at hd
  rw [tokParseGo_congr rest.length (r.dropWhile pyIsSpace).length (r.dropWhile pyIsSpace)
    (by omega) (le_refl _)]
  rfl

/-- The substitution scan of `restore_placeholders`, characterised by the
token decomposition of its input: with enough recorded placeholders it
replaces the `i`-th token occurrence by the `i`-th triple and leaves the
surplus triples unconsumed; with more tokens than triples it raises. -/
theorem subTokens_spec : ∀ (n : Nat) (t : Str) (phs : List (Str × Str × Str)),
    t.length ≤ n →
    (tokCount t ≤ phs.length → subTokens phs t = some (rebuildTok phs (tokParse t))) ∧
    (phs.length < tokCount t → subTokens phs t = none) := by
  intro n
  induction n with
  | zero =>
    intro t phs hf
    have : t = [] := List.length_eq_zero.mp (Nat.le_zero.mp hf)
    subst this
    exact ⟨fun _ => by
        rw [subTokens_nil, show tokParse ([] : Str) = ([] : List TokSeg) from rfl,
          rebuildTok_nil],
      fun h => by simp [tokCount, tokParse, tokParseGo] at h⟩
  | succ n ih =>
    intro t phs hf
    cases t with
    | nil =>
      exact ⟨fun _ => by
          rw [subTokens_nil, show tokParse ([] : Str) = ([] : List TokSeg) from rfl,
            rebuildTok_nil],
        fun h => by simp [tokCount, tokParse, tokParseGo] at h⟩
    | cons c rest =>
      cases hm : matchToken ((c :: rest).dropWhile pyIsSpace) with
      | none =>
        have hcount : tokCount (c :: rest) = tokCount rest := by
          simp [tokCount, tokParse_cons_none hm, isTok]
        have hrw := subTokens_cons_none phs hm
        obtain ⟨ih1, ih2⟩ := ih rest phs (by simp at hf; omega)
        constructor
        · intro hle
          rw [hcount] at hle
          rw [hrw, ih1 hle, tokParse_cons_none hm, rebuildTok_litc]
          rfl
        · intro hlt
          rw [hcount] at hlt
          rw [hrw, ih2 hlt]
          rfl
      | some x =>
        obtain ⟨tok, r⟩ := x
        have hcount : tokCount (c :: rest) = tokCount (r.dropWhile pyIsSpace) + 1 := by
          simp [tokCount, tokParse_cons_some hm, isTok]
        have hlen : (r.dropWhile pyIsSpace).length ≤ n := by
          have hr := matchToken_length hm
          have hd := length_dropWhile_le pyIsSpace (c :: rest)
          have hd2 := length_dropWhile_le pyIsSpace r
          simp only [List.length_cons] at hf hd
          omega
        cases phs with
        | nil =>
          constructor
          · intro hle
            rw [hcount] at hle
            simp at hle
          · intro _
            exact subTokens_cons_some_nil hm
        | cons ph phs' =>
          obtain ⟨a, p, b⟩ := ph
          have hrw := subTokens_cons_some (a := a) (p := p) (b := b) phs' hm
          obtain ⟨ih1, ih2⟩ := ih (r.dropWhile pyIsSpace) phs' hlen
          constructor
          · intro hle
            rw [hcount] at hle
            simp only [List.length_cons] at hle
            rw [hrw, ih1 (by omega), tokParse_cons_some hm]
            rfl
          · intro hlt
            rw [hcount] at hlt
            simp only [List.length_cons] at hlt
            rw [hrw, ih2 (by omega)]
            rfl

theorem wsCore_append_wsEnd (l : Str) : wsCore l ++ wsEnd l = l := by
  unfold wsCore wsEnd
  rw [← List.reverse_append, List.takeWhile_append_dropWhile, List.reverse_reverse]

theorem wsEnd_all_space (l : Str) : ∀ c ∈ wsEnd l, pyIsSpace c := by
  intro c hc
  unfold wsEnd at hc
  rw [List.mem_reverse] at hc
  exact List.mem_takeWhile_imp hc

theorem wsCore_getLast_not_space (l : Str) :
    ∀ c, (wsCore l).getLast? = some c → pyIsSpace c = false := by
  intro c hc
  unfold wsCore at hc
  rw [List.getLast?_reverse] at hc
  have := List.head?_dropWhile_not pyIsSpace l.reverse
  rw [hc] at this
  exact this

theorem goodLit_wsCore {l : Str} (hl : goodLit l = true) : goodLit (wsCore l) = true := by
  unfold goodLit at hl ⊢
  rw [List.all_eq_true] at hl ⊢
  intro c hc
  refine hl c ?_
  unfold wsCore at hc
  rw [List.mem_reverse] at hc
  have := List.dropWhile_sublist (l := l.reverse) pyIsSpace
  rw [← List.mem_reverse]
  exact this.mem hc

theorem goodLit_dropWhile {l : Str} (hl : goodLit l = true) :
    goodLit (l.dropWhile pyIsSpace) = true := by
  unfold goodLit at hl ⊢
  rw [List.all_eq_true] at hl ⊢
  intro c hc
  exact hl c ((List.dropWhile_sublist pyIsSpace).mem hc)

theorem goodLit_spec {l : Str} (hl : goodLit l = true) :
    ∀ c ∈ l, c ≠ '%' ∧ c ≠ '_' := by
  rw [goodLit, List.all_eq_true] at hl
  intro c hc
  have := hl c hc
  simp at this
  exact this

theorem matchPH_no_percent {s : Str} (h : ∀ c ∈ s, c ≠ '%') : matchPH s = none := by
  cases s with
  | nil => rfl
  | cons c rest => exact matchPH_not_percent rest (h c (by simp))

theorem matchToken_no_underscore {s : Str} (h : ∀ c ∈ s, c ≠ '_') : matchToken s = none := by
  cases s with
  | nil => rfl
  | cons c rest => exact matchToken_not_underscore rest (h c (by simp))

theorem findall_of_goodLit : ∀ {h : Str}, goodLit h = true → findallPH h = [] := by
  intro h
  induction h with
  | nil => intro _; rfl
  | cons c h' ih =>
    intro hg
    have hspec := goodLit_spec hg
    have hm : matchPH ((c :: h').dropWhile pyIsSpace) = none :=
      matchPH_no_percent (fun d hd =>
        (hspec d ((List.dropWhile_sublist pyIsSpace).mem hd)).1)
    rw [findallPH_cons_none hm]
    refine ih ?_
    rw [goodLit, List.all_eq_true] at hg ⊢
    exact fun d hd => hg d (by simp [hd])

theorem subTokens_of_goodLit : ∀ {t : Str}, goodLit t = true →
    ∀ phs, subTokens phs t = some t := by
  intro t
  induction t with
  | nil => intro _ phs; rfl
  | cons c t' ih =>
    intro hg phs
    have hspec := goodLit_spec hg
    have hm : matchToken ((c :: t').dropWhile pyIsSpace) = none :=
      matchToken_no_underscore (fun d hd =>
        (hspec d ((List.dropWhile_sublist pyIsSpace).mem hd)).2)
    rw [subTokens_cons_none phs hm]
    have hg' : goodLit t' = true := by
      rw [goodLit, List.all_eq_true] at hg ⊢
      exact fun d hd => hg d (by simp [hd])
    rw [ih hg' phs]
    rfl

theorem dropWhile_split_of_last {u : Str} {x : Char}
    (hlastx : u.getLast? = some x) (hx : pyIsSpace x = false) (v : Str) :
    (u ++ v).dropWhile pyIsSpace = u.dropWhile pyIsSpace ++ v ∧
      u.dropWhile pyIsSpace ≠ [] := by
  have hxmem : x ∈ u := List.mem_of_mem_getLast? hlastx
  have hne : u.dropWhile pyIsSpace ≠ [] := by
    rw [Ne, List.dropWhile_eq_nil_iff]
    intro hall
    rw [hall x hxmem] at hx
    cases hx
  refine ⟨?_, hne⟩
  rw [List.dropWhile_append, if_neg]
  rw [List.isEmpty_iff]
  exact hne

theorem findall_skip : ∀ {u : Str}, (∀ c ∈ u, c ≠ '%') →
    (∀ c, u.getLast? = some c → pyIsSpace c = false) →
    ∀ v, findallPH (u ++ v) = findallPH v := by
  intro u
  induction u with
  | nil => intro _ _ v; rfl
  | cons c u' ih =>
    intro hnp hlast v
    obtain ⟨x, hx⟩ := Option.isSome_iff_exists.mp
      (List.getLast?_isSome.mpr (by simp) : ((c :: u').getLast?).isSome = true)
    obtain ⟨hsplit, hne⟩ := dropWhile_split_of_last hx (hlast x hx) v
    obtain ⟨d, dr, hd⟩ : ∃ d dr, (c :: u').dropWhile pyIsSpace = d :: dr := by
      cases hD : (c :: u').dropWhile pyIsSpace with
      | nil => exact absurd hD hne
      | cons d dr => exact ⟨d, dr, rfl⟩
    have hdmem : d ∈ c :: u' := (List.dropWhile_sublist pyIsSpace).mem (by rw [hd]; simp)
    have hm : matchPH ((c :: (u' ++ v)).dropWhile pyIsSpace) = none := by
      rw [show c :: (u' ++ v) = (c :: u') ++ v from rfl, hsplit, hd, List.cons_append]
      exact matchPH_not_percent _ (hnp d hdmem)
    rw [List.cons_append, findallPH_cons_none hm]
    cases hu' : u' with
    | nil => rfl
    | cons e u'' =>
      subst hu'
      exact ih (fun y hy => hnp y (by simp [hy]))
        (fun y hy => hlast y (by rw [List.getLast?_cons_cons]; exact hy)) v

theorem sub_skip : ∀ {u : Str}, (∀ c ∈ u, c ≠ '_') →
    (∀ c, u.getLast? = some c → pyIsSpace c = false) →
    ∀ (phs : List (Str × Str × Str)) (v : Str),
    subTokens phs (u ++ v) = (subTokens phs v).map (fun o => u ++ o) := by
  intro u
  induction u with
  | nil =>
    intro _ _ phs v
    simp
  | cons c u' ih =>
    intro hnp hlast phs v
    obtain ⟨x, hx⟩ := Option.isSome_iff_exists.mp
      (List.getLast?_isSome.mpr (by simp) : ((c :: u').getLast?).isSome = true)
    obtain ⟨hsplit, hne⟩ := dropWhile_split_of_last hx (hlast x hx) v
    obtain ⟨d, dr, hd⟩ : ∃ d dr, (c :: u').dropWhile pyIsSpace = d :: dr := by
      cases hD : (c :: u').dropWhile pyIsSpace with
      | nil => exact absurd hD hne
      | cons d dr => exact ⟨d, dr, rfl⟩
    have hdmem : d ∈ c :: u' := (List.dropWhile_sublist pyIsSpace).mem (by rw [hd]; simp)
    have hm : matchToken ((c :: (u' ++ v)).dropWhile pyIsSpace) = none := by
      rw [show c :: (u' ++ v) = (c :: u') ++ v from rfl, hsplit, hd, List.cons_append]
      exact matchToken_not_underscore _ (hnp d hdmem)
    rw [List.cons_append, subTokens_cons_none phs hm]
    cases hu' : u' with
    | nil =>
      simp
    | cons e u'' =>
      subst hu'
      rw [ih (fun y hy => hnp y (by simp [hy]))
        (fun y hy => hlast y (by rw [List.getLast?_cons_cons]; exact hy)) phs v]
      rw [Option.map_map]
      rfl

theorem ws_affix {a : Str} (ha : ∀ c ∈ a, pyIsSpace c) {x : Char} (hx : pyIsSpace x = false)
    (X : Str) :
    (a ++ x :: X).takeWhile pyIsSpace = a ∧ (a ++ x :: X).dropWhile pyIsSpace = x :: X := by
  constructor
  · rw [List.takeWhile_append_of_pos ha, List.takeWhile_cons]
    simp [hx]
  · rw [List.dropWhile_append_of_pos ha, List.dropWhile_cons]
    simp [hx]

theorem renderShape_append (x y : Str) (tail : List ((Option Str × Char) × Str)) :
    renderShape (x ++ y) tail = x ++ renderShape y tail := by
  cases tail with
  | nil => rfl
  | cons pl rest =>
    obtain ⟨⟨name, cv⟩, l2⟩ := pl
    show x ++ y ++ phText name cv ++ renderShape l2 rest =
      x ++ (y ++ phText name cv ++ renderShape l2 rest)
    simp [List.append_assoc]

theorem takeWhile_head_stop {x : Char} (hx : pyIsSpace x = false) (X : Str) :
    (x :: X).takeWhile pyIsSpace = [] := by
  rw [List.takeWhile_cons]
  simp [hx]

theorem dropWhile_head_stop {x : Char} (hx : pyIsSpace x = false) (X : Str) :
    (x :: X).dropWhile pyIsSpace = x :: X := by
  rw [List.dropWhile_cons]
  simp [hx]

theorem percent_not_space : pyIsSpace '%' = false := rfl

theorem underscore_not_space : pyIsSpace '_' = false := rfl

theorem renderShape_ws (l : Str) (tail : List ((Option Str × Char) × Str)) :
    (renderShape l tail).takeWhile pyIsSpace = l.takeWhile pyIsSpace ∧
      (renderShape l tail).dropWhile pyIsSpace =
        renderShape (l.dropWhile pyIsSpace) tail := by
  cases tail with
  | nil => exact ⟨rfl, rfl⟩
  | cons pl rest =>
    obtain ⟨⟨name, cv⟩, l2⟩ := pl
    obtain ⟨t', hpt⟩ := phText_head name cv
    have hX : phText name cv ++ renderShape l2 rest =
        '%' :: (t' ++ renderShape l2 rest) := by
      rw [hpt]
      rfl
    constructor
    · show (l ++ phText name cv ++ renderShape l2 rest).takeWhile pyIsSpace = _
      rw [List.append_assoc, hX, List.takeWhile_append,
        takeWhile_head_stop percent_not_space]
      split
      · next hlen =>
        have heq : l.takeWhile pyIsSpace = l :=
          ( List.takeWhile_prefix pyIsSpace).eq_of_length hlen
        rw [List.append_nil, heq]
      · rfl
    · show (l ++ phText name cv ++ renderShape l2 rest).dropWhile pyIsSpace = _
      rw [List.append_assoc, hX, List.dropWhile_append,
        dropWhile_head_stop percent_not_space]
      split
      · next hemp =>
        rw [List.isEmpty_iff] at hemp
        show _ = renderShape (l.dropWhile pyIsSpace) (((name, cv), l2) :: rest)
        rw [hemp]
        show '%' :: (t' ++ renderShape l2 rest) =
          [] ++ phText name cv ++ renderShape l2 rest
        rw [List.nil_append, hX]
      · show _ = renderShape (l.dropWhile pyIsSpace) (((name, cv), l2) :: rest)
        show l.dropWhile pyIsSpace ++ '%' :: (t' ++ renderShape l2 rest) =
          l.dropWhile pyIsSpace ++ phText name cv ++ renderShape l2 rest
        rw [List.append_assoc, hX]

theorem humanShape_ws (l : Str) (tail : List ((Option Str × Char) × Str)) :
    (humanShape l tail).takeWhile pyIsSpace = l.takeWhile pyIsSpace ∧
      (humanShape l tail).dropWhile pyIsSpace =
        humanShape (l.dropWhile pyIsSpace) tail := by
  cases tail with
  | nil => exact ⟨rfl, rfl⟩
  | cons pl rest =>
    obtain ⟨⟨name, cv⟩, l2⟩ := pl
    obtain ⟨t', hpt⟩ := phToken_head name cv
    have hX : phToken name cv ++ humanShape l2 rest =
        '_' :: (t' ++ humanShape l2 rest) := by
      rw [hpt]
      rfl
    constructor
    · show (l ++ phToken name cv ++ humanShape l2 rest).takeWhile pyIsSpace = _
      rw [List.append_assoc, hX, List.takeWhile_append,
        takeWhile_head_stop underscore_not_space]
      split
      · next hlen =>
        have heq : l.takeWhile pyIsSpace = l :=
          ( List.takeWhile_prefix pyIsSpace).eq_of_length hlen
        rw [List.append_nil, heq]
      · rfl
    · show (l ++ phToken name cv ++ humanShape l2 rest).dropWhile pyIsSpace = _
      rw [List.append_assoc, hX, List.dropWhile_append,
        dropWhile_head_stop underscore_not_space]
      split
      · next hemp =>
        rw [List.isEmpty_iff] at hemp
        show _ = humanShape (l.dropWhile pyIsSpace) (((name, cv), l2) :: rest)
        rw [hemp]
        show '_' :: (t' ++ humanShape l2 rest) =
          [] ++ phToken name cv ++ humanShape l2 rest
        rw [List.nil_append, hX]
      · show _ = humanShape (l.dropWhile pyIsSpace) (((name, cv), l2) :: rest)
        show l.dropWhile pyIsSpace ++ '_' :: (t' ++ humanShape l2 rest) =
          l.dropWhile pyIsSpace ++ phToken name cv ++ humanShape l2 rest
        rw [List.append_assoc, hX]

theorem goodPH_spec {name : Option Str} {cv : Char} (hg : goodPH (name, cv) = true) :
    (cv = 's' ∨ cv = 'd') ∧
      ∀ n, name = some n →
        n ≠ [] ∧ (∀ c ∈ n, c.isAlphanum) ∧ n.map Char.toLower = n := by
  cases name with
  | none =>
    simp only [goodPH, Bool.and_eq_true] at hg
    refine ⟨by simpa using hg.1, fun n h => by cases h⟩
  | some n =>
    simp only [goodPH, Bool.and_eq_true, List.all_eq_true] at hg
    obtain ⟨hcv, hne, hall⟩ := hg
    refine ⟨by simpa using hcv, fun n' h => ?_⟩
    injection h with h'
    subst h'
    refine ⟨by simpa [List.isEmpty_iff] using hne, fun c hc => ?_, ?_⟩
    · have := hall c hc
      simp [Bool.and_eq_true] at this
      exact this.1
    · have : ∀ c ∈ n, Char.toLower c = c := by
        intro c hc
        have := hall c hc
        simp [Bool.and_eq_true] at this
        exact this.2
      calc n.map Char.toLower = n.map id := List.map_congr_left this
        _ = n := List.map_id n

theorem matchPH_phText {name : Option Str} {cv : Char} (hg : goodPH (name, cv) = true)
    (T : Str) : matchPH (phText name cv ++ T) = some (name, cv, T) := by
  obtain ⟨hcv, hname⟩ := goodPH_spec hg
  cases name with
  | none => exact matchPH_bare hcv T
  | some n =>
    obtain ⟨hne, hal, -⟩ := hname n rfl
    exact matchPH_named hne (fun c hc => by simp [pyIsWord, hal c hc]) hcv T

theorem matchToken_phToken {name : Option Str} {cv : Char} (hg : goodPH (name, cv) = true)
    (T : Str) : matchToken (phToken name cv ++ T) = some (phToken name cv, T) := by
  obtain ⟨hcv, hname⟩ := goodPH_spec hg
  cases name with
  | none =>
    by_cases hd : cv = 'd'
    · have h1 : phToken none cv = '_' :: '_' :: (['n', 'u', 'm', 'b', 'e', 'r'] ++ ['_', '_']) := by
        simp [phToken, hd]
      rw [h1]
      exact matchToken_tok (by simp) (by decide) T
    · have h1 : phToken none cv = '_' :: '_' :: (['i', 't', 'e', 'm'] ++ ['_', '_']) := by
        simp [phToken, hd]
      rw [h1]
      exact matchToken_tok (by simp) (by decide) T
  | some n =>
    obtain ⟨hne, hal, hlow⟩ := hname n rfl
    have h1 : phToken (some n) cv = '_' :: '_' :: (n ++ ['_', '_']) := by
      simp [phToken, hlow]
    rw [h1]
    exact matchToken_tok hne hal T

theorem goodShape_parts {h : Str} {name : Option Str} {cv : Char} {l2 : Str}
    {rest : List ((Option Str × Char) × Str)}
    (hg : goodShape h (((name, cv), l2) :: rest) = true) :
    goodLit h = true ∧ goodPH (name, cv) = true ∧
      goodShape l2 rest = true := by
  simp only [goodShape, List.all_cons, Bool.and_eq_true] at hg ⊢
  tauto

theorem goodShape_dropWhile {l2 : Str} {rest : List ((Option Str × Char) × Str)}
    (hg : goodShape l2 rest = true) :
    goodShape (l2.dropWhile pyIsSpace) rest = true := by
  simp only [goodShape, Bool.and_eq_true] at hg ⊢
  exact ⟨goodLit_dropWhile hg.1, hg.2⟩

theorem findallShape : ∀ (tail : List ((Option Str × Char) × Str)) (h : Str),
    goodShape h tail = true → findallPH (renderShape h tail) = triplesShape h tail := by
  intro tail
  induction tail with
  | nil =>
    intro h hg
    have hgl : goodLit h = true := by
      simp only [goodShape, List.all_nil, Bool.and_true] at hg
      exact hg
    exact findall_of_goodLit hgl
  | cons pl rest ih =>
    intro h hg
    obtain ⟨⟨name, cv⟩, l2⟩ := pl
    obtain ⟨hgh, hgph, hgl2rest⟩ := goodShape_parts hg
    obtain ⟨t', hpt⟩ := phText_head name cv
    have hcoreok : ∀ c ∈ wsCore h, c ≠ '%' := fun c hc =>
      ((goodLit_spec (goodLit_wsCore hgh)) c hc).1
    show findallPH (h ++ phText name cv ++ renderShape l2 rest) =
      (wsEnd h, phText name cv, l2.takeWhile pyIsSpace) ::
        triplesShape (l2.dropWhile pyIsSpace) rest
    have hsplit : h ++ phText name cv ++ renderShape l2 rest =
        wsCore h ++ (wsEnd h ++ '%' :: (t' ++ renderShape l2 rest)) := by
      conv_lhs => rw [← wsCore_append_wsEnd h]
      rw [hpt]
      simp [List.append_assoc]
    rw [hsplit, findall_skip hcoreok (wsCore_getLast_not_space h)]
    obtain ⟨htake, hdrop⟩ :=
      ws_affix (wsEnd_all_space h) percent_not_space (t' ++ renderShape l2 rest)
    have hm0 : matchPH ('%' :: (t' ++ renderShape l2 rest)) =
        some (name, cv, renderShape l2 rest) := by
      have hmm := matchPH_phText hgph (renderShape l2 rest)
      rw [hpt, List.cons_append] at hmm
      exact hmm
    obtain ⟨c, cs, hc⟩ : ∃ c cs,
        wsEnd h ++ '%' :: (t' ++ renderShape l2 rest) = c :: cs := by
      cases hA : wsEnd h with
      | nil => exact ⟨'%', t' ++ renderShape l2 rest, by simp⟩
      | cons a as => exact ⟨a, as ++ '%' :: (t' ++ renderShape l2 rest), by simp⟩
    rw [hc] at htake hdrop ⊢
    rw [findallPH_cons_some (by rw [hdrop]; exact hm0)]
    rw [htake, (renderShape_ws l2 rest).1, (renderShape_ws l2 rest).2,
      ih (l2.dropWhile pyIsSpace) (goodShape_dropWhile hgl2rest)]

theorem humanizeShape : ∀ (tail : List ((Option Str × Char) × Str)) (h : Str),
    goodShape h tail = true →
    humanize_placeholders (renderShape h tail) = humanShape h tail := by
  intro tail
  induction tail with
  | nil =>
    intro h hg
    have hgl : goodLit h = true := by
      simp only [goodShape, List.all_nil, Bool.and_true] at hg
      exact hg
    have hnp : ∀ c ∈ h, c ≠ '%' := fun c hc => (goodLit_spec hgl c hc).1
    have := humanize_skip hnp []
    rw [List.append_nil, humanize_nil, List.append_nil] at this
    exact this
  | cons pl rest ih =>
    intro h hg
    obtain ⟨⟨name, cv⟩, l2⟩ := pl
    obtain ⟨hgh, hgph, hgl2rest⟩ := goodShape_parts hg
    obtain ⟨hcv, hname⟩ := goodPH_spec hgph
    have hnp : ∀ c ∈ h, c ≠ '%' := fun c hc => (goodLit_spec hgh c hc).1
    show humanize_placeholders (h ++ phText name cv ++ renderShape l2 rest) =
      h ++ phToken name cv ++ humanShape l2 rest
    rw [List.append_assoc, humanize_skip hnp,
      humanize_ph (fun n hn => ⟨(hname n hn).1, fun c hc =>
        by simp [pyIsWord, (hname n hn).2.1 c hc]⟩) hcv,
      ih l2 hgl2rest, List.append_assoc]

theorem subShape : ∀ (tail : List ((Option Str × Char) × Str)) (h : Str),
    goodShape h tail = true →
    subTokens (triplesShape h tail) (humanShape h tail) = some (renderShape h tail) := by
  intro tail
  induction tail with
  | nil =>
    intro h hg
    have hgl : goodLit h = true := by
      simp only [goodShape, List.all_nil, Bool.and_true] at hg
      exact hg
    exact subTokens_of_goodLit hgl []
  | cons pl rest ih =>
    intro h hg
    obtain ⟨⟨name, cv⟩, l2⟩ := pl
    obtain ⟨hgh, hgph, hgl2rest⟩ := goodShape_parts hg
    obtain ⟨t', hpt⟩ := phToken_head name cv
    have hcoreok : ∀ c ∈ wsCore h, c ≠ '_' := fun c hc =>
      ((goodLit_spec (goodLit_wsCore hgh)) c hc).2
    show subTokens
        ((wsEnd h, phText name cv, l2.takeWhile pyIsSpace) ::
          triplesShape (l2.dropWhile pyIsSpace) rest)
        (h ++ phToken name cv ++ humanShape l2 rest) =
      some (h ++ phText name cv ++ renderShape l2 rest)
    have hsplit : h ++ phToken name cv ++ humanShape l2 rest =
        wsCore h ++ (wsEnd h ++ '_' :: (t' ++ humanShape l2 rest)) := by
      conv_lhs => rw [← wsCore_append_wsEnd h]
      rw [hpt]
      simp [List.append_assoc]
    rw [hsplit, sub_skip hcoreok (wsCore_getLast_not_space h)]
    obtain ⟨htake, hdrop⟩ :=
      ws_affix (wsEnd_all_space h) underscore_not_space (t' ++ humanShape l2 rest)
    have hm0 : matchToken ('_' :: (t' ++ humanShape l2 rest)) =
        some (phToken name cv, humanShape l2 rest) := by
      have hmm := matchToken_phToken hgph (humanShape l2 rest)
      rw [hpt, List.cons_append] at hmm
      rw [hmm, hpt]
    obtain ⟨c, cs, hc⟩ : ∃ c cs,
        wsEnd h ++ '_' :: (t' ++ humanShape l2 rest) = c :: cs := by
      cases hA : wsEnd h with
      | nil => exact ⟨'_', t' ++ humanShape l2 rest, by simp⟩
      | cons a as => exact ⟨a, as ++ '_' :: (t' ++ humanShape l2 rest), by simp⟩
    rw [hc] at htake hdrop ⊢
    rw [subTokens_cons_some (triplesShape (l2.dropWhile pyIsSpace) rest)
      (by rw [hdrop]; exact hm0)]
    rw [(humanShape_ws l2 rest).2, ih (l2.dropWhile pyIsSpace) (goodShape_dropWhile hgl2rest)]
    simp only [Option.map_map, Option.map_some', Function.comp]
    have hrender : renderShape l2 rest =
        l2.takeWhile pyIsSpace ++ renderShape (l2.dropWhile pyIsSpace) rest := by
      rw [← renderShape_append, List.takeWhile_append_dropWhile]
    rw [hrender]
    conv_rhs => rw [← wsCore_append_wsEnd h]
    simp [List.append_assoc]

/-- Claim C1: with `--untranslated` (`skip_translated = true`) the claim
says an already-translated, non-obsolete entry is excluded and every other
entry, including obsolete ones, is included.  The source's boolean formula
`not skip_translated or not entry.translated() or not entry.obsolete`
instead evaluates to `true` on a translated non-obsolete entry (so the
entry is re-translated, contradicting the flag's own help text
"autotranslate the fuzzy and empty messages only") and to `false` on a
translated obsolete entry. -/
theorem need_translate_untranslated_bug :
    need_translate ⟨true, false⟩ ⟨['a'], [], ['x'], [], [], false⟩ = true ∧
      need_translate ⟨true, false⟩ ⟨['a'], [], ['x'], [], [], true⟩ = false := by
  decide

/-- Claim C2 (counterexample): a returned list longer than the request: the
catalog extracts one string, two translations are supplied, and
`update_translations` completes without raising, silently leaving the
surplus translation unconsumed. -/
theorem update_longer_no_error :
    (get_strings_to_translate ⟨false, false⟩ [⟨['a'], [], [], [], [], false⟩]).length = 1 ∧
      update_translations ⟨false, false⟩ [⟨['a'], [], [], [], [], false⟩] [['x'], ['y']] =
        some ([⟨['a'], [], ['x'], [], [], false⟩], [['y']]) := by
  exact ⟨rfl, rfl⟩

/-- Claim C2 (amended): when the returned translation list is shorter than
the extracted string list, `update_translations` raises an error that
propagates (`StopIteration`), never padding; when it is longer, no error is
raised on account of the surplus: whenever the call completes, the
unconsumed remainder accounts exactly for the length difference. -/
theorem update_length_mismatch (cfg : Config) (po : List POEntry) (ts : List Str) :
    (ts.length < (get_strings_to_translate cfg po).length →
      update_translations cfg po ts = none) ∧
    (∀ po' rest, update_translations cfg po ts = some (po', rest) →
      (get_strings_to_translate cfg po).length + rest.length = ts.length) := by
  constructor
  · intro hlt
    refine update_short cfg po ts ?_
    rw [← get_strings_length]
    exact hlt
  · intro po' rest h
    obtain ⟨hd, hle⟩ := update_rest cfg po ts po' rest h
    subst hd
    rw [get_strings_length cfg po, List.length_drop]
    omega

theorem update_length_mismatch_witness :
    update_translations ⟨false, false⟩ [⟨['a'], [], [], [], [], false⟩] [] = none ∧
      (get_strings_to_translate ⟨false, false⟩ [⟨['a'], [], [], [], [], false⟩]).length +
        ([['y']] : List Str).length = ([['x'], ['y']] : List Str).length :=
  ⟨(update_length_mismatch ⟨false, false⟩ [⟨['a'], [], [], [], [], false⟩] []).1 (by decide),
    (update_length_mismatch ⟨false, false⟩ [⟨['a'], [], [], [], [], false⟩]
      [['x'], ['y']]).2 [⟨['a'], [], ['x'], [], [], false⟩] [['y']] (by decide)⟩

/-- Claim C4 (counterexample): two singular entries need translation, so
`N + M = 2`; fed a list of exactly that length whose first element carries
a spurious humanized token, `fix_translation` raises (`IndexError` in
`restore_placeholders`) and `update_translations` aborts without consuming
the remaining translation, instead of completing as the claim asserts. -/
theorem update_count_abort :
    (get_strings_to_translate ⟨false, false⟩
        [⟨['a'], [], [], [], [], false⟩, ⟨['b'], [], [], [], [], false⟩]).length = 2 ∧
      update_translations ⟨false, false⟩
        [⟨['a'], [], [], [], [], false⟩, ⟨['b'], [], [], [], [], false⟩]
        [['_', '_', 'x', '_', '_'], ['y']] = none := by
  exact ⟨rfl, rfl⟩

/-- Claim C4 (amended): the extracted list has length `N + M` (`N` entries
needing translation, `M` of them with a plural form), and whenever
`update_translations` runs to completion it consumes exactly that many
translations off the front, leaving the rest; completion can fail when a
supplied translation has more humanized tokens than its msgid has
placeholders. -/
theorem strings_count_invariant (cfg : Config) (po : List POEntry) (ts : List Str) :
    (get_strings_to_translate cfg po).length =
      (po.filter (fun e => need_translate cfg e)).length +
        (po.filter (fun e => need_translate cfg e && e.msgid_plural ≠ [])).length ∧
    (∀ po' rest, update_translations cfg po ts = some (po', rest) →
      rest = ts.drop (get_strings_to_translate cfg po).length ∧
      (get_strings_to_translate cfg po).length ≤ ts.length) := by
  constructor
  · rw [get_strings_length]
    exact neededCount_split cfg po
  · intro po' rest h
    rw [get_strings_length]
    exact update_rest cfg po ts po' rest h

theorem strings_count_invariant_witness :
    ([['y']] : List Str) = ([['x'], ['y']] : List Str).drop
        (get_strings_to_translate ⟨false, false⟩ [⟨['a'], [], [], [], [], false⟩]).length ∧
      (get_strings_to_translate ⟨false, false⟩
        [⟨['a'], [], [], [], [], false⟩]).length ≤ ([['x'], ['y']] : List Str).length :=
  (strings_count_invariant ⟨false, false⟩ [⟨['a'], [], [], [], [], false⟩]
    [['x'], ['y']]).2 [⟨['a'], [], ['x'], [], [], false⟩] [['y']] (by decide)

/-- Claim C5: for an entry with a plural form processed by
`update_translations`, the first consumed translation, fixed against
`msgid`, is stored into plural index 0, and the second, fixed against
`msgid_plural`, into every other existing plural index. -/
theorem plural_entry_update (cfg : Config) (e : POEntry) (es : List POEntry)
    (a b : Str) (ts : List Str) (f1 f2 : Str) (e' : POEntry) (es' : List POEntry)
    (rest : List Str)
    (hne : need_translate cfg e = true) (hp : e.msgid_plural ≠ [])
    (hf1 : fix_translation e.msgid a = some f1)
    (hf2 : fix_translation e.msgid_plural b = some f2)
    (h : update_translations cfg (e :: es) (a :: b :: ts) = some (e' :: es', rest)) :
    dictGet e'.msgstr_plural 0 = some f1 ∧
      ∀ k, k ≠ 0 → (dictGet e.msgstr_plural k).isSome →
        dictGet e'.msgstr_plural k = some f2 := by
  have hrw := update_cons_need es hne (applyEntry_plural ts hp hf1 hf2)
  rw [hrw] at h
  split at h
  · exact absurd h (by simp)
  · next es1 rest1 hu =>
    injection h with h'
    injection h' with h1 h2
    injection h1 with h1a h1b
    have hmp : e'.msgstr_plural =
        (dictSet e.msgstr_plural 0 f1).map (fun p => if p.1 ≠ 0 then (p.1, f2) else p) := by
      rw [← h1a, setFuzzy_msgstr_plural]
    constructor
    · rw [hmp, dictGet_mapNonzero, dictGet_dictSet_same]
      simp
    · intro k hk hsome
      rw [hmp, dictGet_mapNonzero, dictGet_dictSet_other _ _ _ _ hk]
      obtain ⟨v, hv⟩ := Option.isSome_iff_exists.mp hsome
      rw [hv]
      simp [hk]

theorem plural_entry_update_witness :
    dictGet ([((0 : Nat), ['u']), (1, ['v']), (2, ['v'])] :
        List (Nat × Str)) 0 = some ['u'] ∧
      dictGet ([((0 : Nat), ['u']), (1, ['v']), (2, ['v'])] :
        List (Nat × Str)) 2 = some ['v'] := by
  have hr := plural_entry_update ⟨false, false⟩
    ⟨['a'], ['b'], [], [(0, []), (1, []), (2, [])], [], false⟩ [] ['u'] ['v'] []
    ['u'] ['v'] ⟨['a'], ['b'], [], [(0, ['u']), (1, ['v']), (2, ['v'])], [], false⟩ [] []
    (by decide) (by decide) (by decide) (by decide) (by decide)
  exact ⟨hr.1, hr.2 2 (by decide) (by decide)⟩

/-- Claim C3 (counterexample): for the msgid `"__x__"`, which contains zero
placeholders, the round trip does not reproduce the msgid:
`humanize_placeholders` leaves it unchanged, but `restore_placeholders`
then treats `__x__` as a humanized token, pops from the empty `placehoders`
list (`IndexError`), and `fix_translation` raises instead of returning the
msgid. -/
theorem humanize_fix_roundtrip_cex :
    humanize_placeholders ['_', '_', 'x', '_', '_'] = ['_', '_', 'x', '_', '_'] ∧
      fix_translation ['_', '_', 'x', '_', '_']
        (humanize_placeholders ['_', '_', 'x', '_', '_']) = none := by
  exact ⟨rfl, rfl⟩

/-- Claim C3 (amended): for every msgid assembled from literal text
containing no percent sign and no underscore, and placeholders `%s`, `%d`,
`%(name)s`, `%(name)d` whose names are non-empty lower-case alphanumeric
strings, applying `humanize_placeholders` and then `fix_translation` with
the identical humanized string as the translation reproduces the original
msgid exactly — placeholder text, whitespace and leading/trailing newlines
included. -/
theorem humanize_fix_roundtrip (h : Str) (tail : List ((Option Str × Char) × Str))
    (hg : goodShape h tail = true) :
    fix_translation (renderShape h tail)
      (humanize_placeholders (renderShape h tail)) = some (renderShape h tail) := by
  unfold fix_translation
  rw [fixNewlines_humanize]
  unfold restore_placeholders
  rw [findallShape tail h hg, humanizeShape tail h hg, subShape tail h hg]

theorem humanize_fix_roundtrip_witness :
    fix_translation "Hello %(name)s, you have %d items\n".data
      (humanize_placeholders "Hello %(name)s, you have %d items\n".data) =
      some "Hello %(name)s, you have %d items\n".data := by
  have h := humanize_fix_roundtrip "Hello ".data
    [((some "name".data, 's'), ", you have ".data), ((none, 'd'), " items\n".data)]
    (by decide)
  have hr : renderShape "Hello ".data
      [((some "name".data, 's'), ", you have ".data), ((none, 'd'), " items\n".data)] =
      "Hello %(name)s, you have %d items\n".data := by decide
  rw [hr] at h
  exact h

/-- Claim C6: `humanize_placeholders` decomposes its input into literal
characters and placeholder occurrences found left to right; the
decomposition reproduces the input exactly (order and surrounding literal
text unchanged), and the output is the same decomposition with each
placeholder occurrence replaced by its single token — `__name__` with the
named group lower-cased, `__number__` for bare `%d`, `__item__` for bare
`%s` (the `segToken`/`phToken` mapping), every occurrence converting `s`
or `d`. -/
theorem humanize_decomposition (s : Str) :
    ((phParse s).map segText).flatten = s ∧
      humanize_placeholders s = ((phParse s).map segToken).flatten ∧
      (∀ name cv, MsgSeg.ph name cv ∈ phParse s → (cv = 's' ∨ cv = 'd')) :=
  phParse_spec s.length s (le_refl _)

/-- Claim C7: `restore_placeholders` replaces the `i`-th humanized token
occurrence of the translation (with its surrounding whitespace) by the
`i`-th whitespace/placeholder/whitespace triple recorded from the msgid;
when the translation has fewer tokens than the msgid had placeholders the
surplus triples are simply not consumed and no error occurs, and when it
has more tokens the `placehoders.pop(0)` call raises (`IndexError`). -/
theorem restore_positional (msgid tr : Str) :
    (tokCount tr ≤ (findallPH msgid).length →
      restore_placeholders msgid tr =
        some (rebuildTok (findallPH msgid) (tokParse tr))) ∧
    ((findallPH msgid).length < tokCount tr →
      restore_placeholders msgid tr = none) :=
  subTokens_spec tr.length tr (findallPH msgid) (le_refl _)

theorem restore_positional_witness :
    restore_placeholders ['a', ' ', '%', 's'] ['X', ' ', '_', '_', 'i', 't', 'e', 'm', '_', '_'] =
      some (rebuildTok (findallPH ['a', ' ', '%', 's'])
        (tokParse ['X', ' ', '_', '_', 'i', 't', 'e', 'm', '_', '_'])) ∧
      restore_placeholders ['a'] ['_', '_', 'x', '_', '_'] = none :=
  ⟨(restore_positional ['a', ' ', '%', 's']
      ['X', ' ', '_', '_', 'i', 't', 'e', 'm', '_', '_']).1 (by decide),
    (restore_positional ['a'] ['_', '_', 'x', '_', '_']).2 (by decide)⟩

/-- Claim C8 (counterexample): with `msgid = "\n"` and the empty
translation, the claim predicts both a prepended and an appended newline
(`"\n\n"`); the code checks the append condition on the already-prepended
text, which now ends with a newline, and returns `"\n"`. -/
theorem fix_newlines_cex :
    fixNewlines ['\n'] [] = ['\n'] ∧
      fix_translation ['\n'] [] = some ['\n'] ∧
      (['\n'] : Str) ≠ ['\n', '\n'] := by
  refine ⟨rfl, rfl, by decide⟩

/-- Claim C8 (amended): the newline-repair stage of `fix_translation`
prepends a newline iff the msgid starts with one and the translation does
not; for a non-empty translation it appends a newline iff the msgid ends
with one and the translation does not; for the empty translation a single
newline results whenever the msgid starts or ends with one, because the
append check examines the translation after the possible prepend. -/
theorem fix_newlines_characterisation (m t : Str) :
    fixNewlines m t =
      if t = [] then (if startsWithNL m || endsWithNL m then ['\n'] else [])
      else
        (if startsWithNL m && !startsWithNL t then ['\n'] else []) ++ t ++
          (if endsWithNL m && !endsWithNL t then ['\n'] else []) := by
  unfold fixNewlines
  by_cases ht : t = []
  · subst ht
    cases h1 : startsWithNL m <;> cases h2 : endsWithNL m <;>
      simp [h1, h2, startsWithNL, endsWithNL]
  · rw [if_neg ht]
    have hend : endsWithNL ('\n' :: t) = endsWithNL t := by
      obtain ⟨c, t', hct⟩ : ∃ c t', t = c :: t' := by
        cases t with
        | nil => exact absurd rfl ht
        | cons c t' => exact ⟨c, t', rfl⟩
      rw [hct]
      exact endsWithNL_append ['\n'] (by simp)
    cases h1 : startsWithNL m <;> cases h2 : startsWithNL t <;>
      cases h3 : endsWithNL m <;> cases h4 : endsWithNL t <;>
        simp [h1, h2, h3, h4, hend]

/-- Claim C9: with `set_fuzzy = true`, every entry processed by
`update_translations` carries `"fuzzy"` in its flag list afterwards, the
flag is added at most once (an entry carrying it at most once before ends
with exactly one occurrence), and the step is idempotent: an entry already
carrying the flag keeps its flag list unchanged, so a second run adds
nothing. -/
theorem fuzzy_flag_idempotent (cfg : Config) (po : List POEntry) (ts : List Str)
    (po' : List POEntry) (rest : List Str)
    (hs : cfg.set_fuzzy = true)
    (h : update_translations cfg po ts = some (po', rest)) :
    List.Forall₂ (fun e e' =>
      (need_translate cfg e = true →
        "fuzzy".data ∈ e'.flags ∧
        List.count "fuzzy".data e'.flags = max (List.count "fuzzy".data e.flags) 1 ∧
        (List.count "fuzzy".data e.flags ≤ 1 → List.count "fuzzy".data e'.flags = 1)) ∧
      ("fuzzy".data ∈ e.flags → e'.flags = e.flags)) po po' := by
  refine (update_forall2 cfg po ts po' rest h).imp ?_
  intro e e' hr
  obtain ⟨hnone, hsome⟩ := hr
  have hflagstep : need_translate cfg e = true →
      e'.flags = if !(e.flags.contains "fuzzy".data) then e.flags ++ ["fuzzy".data]
        else e.flags := by
    intro hne
    have hfl := hsome hne
    rw [hs] at hfl
    simpa using hfl
  have hsame : "fuzzy".data ∈ e.flags → e'.flags = e.flags := by
    intro hin
    by_cases hne : need_translate cfg e
    · have hcont : e.flags.contains "fuzzy".data = true := List.elem_eq_true_of_mem hin
      rw [hflagstep hne, hcont]
      simp
    · rw [hnone (by simpa using hne)]
  refine ⟨?_, hsame⟩
  intro hne
  by_cases hin : "fuzzy".data ∈ e.flags
  · have hflags := hsame hin
    have hpos : 0 < List.count "fuzzy".data e.flags := List.count_pos_iff.mpr hin
    refine ⟨by rw [hflags]; exact hin, by rw [hflags]; omega, fun hle => by rw [hflags]; omega⟩
  · have hcont : e.flags.contains "fuzzy".data = false := by
      cases hc : e.flags.contains "fuzzy".data with
      | false => rfl
      | true => exact absurd (List.mem_of_elem_eq_true hc) hin
    have hflags : e'.flags = e.flags ++ ["fuzzy".data] := by
      rw [hflagstep hne, hcont]
      simp
    have hzero : List.count "fuzzy".data e.flags = 0 := List.count_eq_zero.mpr hin
    have hone : List.count "fuzzy".data e'.flags = 1 := by
      rw [hflags, List.count_append, hzero]
      simp
    refine ⟨by rw [hflags]; simp, by rw [hone, hzero]; omega, fun _ => hone⟩

theorem fuzzy_flag_idempotent_witness :
    List.Forall₂ (fun e e' : POEntry =>
      (need_translate ⟨false, true⟩ e = true →
        "fuzzy".data ∈ e'.flags ∧
        List.count "fuzzy".data e'.flags = max (List.count "fuzzy".data e.flags) 1 ∧
        (List.count "fuzzy".data e.flags ≤ 1 → List.count "fuzzy".data e'.flags = 1)) ∧
      ("fuzzy".data ∈ e.flags → e'.flags = e.flags))
      [⟨['a'], [], [], [], [], false⟩]
      [⟨['a'], [], ['x'], [], ["fuzzy".data], false⟩] :=
  fuzzy_flag_idempotent ⟨false, true⟩ [⟨['a'], [], [], [], [], false⟩] [['x'], ['y']]
    [⟨['a'], [], ['x'], [], ["fuzzy".data], false⟩] [['y']] rfl (by decide)

/-- Claim C10: `update_translations` leaves every entry that does not
satisfy `need_translate` completely unchanged, and the unconsumed suffix of
the translation list is determined by the needing entries alone — no
translation is consumed for a skipped entry. -/
theorem untouched_entries (cfg : Config) (po : List POEntry) (ts : List Str)
    (po' : List POEntry) (rest : List Str)
    (h : update_translations cfg po ts = some (po', rest)) :
    List.Forall₂ (fun e e' => need_translate cfg e = false → e' = e) po po' ∧
      rest = ts.drop (neededCount cfg (po.filter (fun e => need_translate cfg e))) := by
  constructor
  · exact (update_forall2 cfg po ts po' rest h).imp (fun e e' hr => hr.1)
  · rw [neededCount_filter]
    exact (update_rest cfg po ts po' rest h).1

theorem untouched_entries_witness :
    List.Forall₂ (fun e e' : POEntry => need_translate ⟨true, false⟩ e = false → e' = e)
      [⟨['a'], [], ['x'], [], [], true⟩] [⟨['a'], [], ['x'], [], [], true⟩] ∧
      ([['z']] : List Str) = ([['z']] : List Str).drop
        (neededCount ⟨true, false⟩
          (([⟨['a'], [], ['x'], [], [], true⟩] : List POEntry).filter
            (fun e => need_translate ⟨true, false⟩ e))) :=
  untouched_entries ⟨true, false⟩ [⟨['a'], [], ['x'], [], [], true⟩] [['z']]
    [⟨['a'], [], ['x'], [], [], true⟩] [['z']] (by decide)
